import Mathlib

/-
Verification of the REGoth console core (src/ui/Console.cpp): command
resolution, autocomplete bucket matching, the legacy literal matcher and the
history buffer, embedded shallowly over lists of characters.
-/

namespace REGoth

/-- Strings are modelled as lists of characters. -/
abbrev Str := List Char

/-- Lowercases one ASCII character. Modelled from the spec: the ASCII-centric
case folding performed by the helper `Utils::lower`, whose source is not part
of this repository snapshot. -/
def lowerChar (c : Char) : Char :=
  if 'A' ≤ c ∧ c ≤ 'Z' then Char.ofNat (c.toNat + 32) else c

/-- Lowercases a string character by character (`Utils::lower`). -/
def lowerStr (s : Str) : Str := s.map lowerChar

/-- Length of the longest common prefix of two strings. Modelled from the
spec: the helper `Utils::commonStartLength`, whose source is not part of this
repository snapshot. -/
def commonStartLength : Str → Str → Nat
  | a :: as, b :: bs => if a = b then commonStartLength as bs + 1 else 0
  | _, _ => 0

/-- The character classification used by `std::isspace` in the default locale
(space, tab, newline, vertical tab, form feed, carriage return). -/
def cppIsSpace (c : Char) : Bool :=
  c = ' ' ∨ c = '\t' ∨ c = '\n' ∨ c = Char.ofNat 11 ∨ c = Char.ofNat 12 ∨ c = '\r'

/-- First position of `needle` inside `hay`, as `std::string::find`: `none`
plays the role of `npos`. -/
def strFind : Str → Str → Option Nat
  | [], needle => if needle = [] then some 0 else none
  | c :: t, needle =>
      if needle.isPrefixOf (c :: t) then some 0 else (strFind t needle).map (· + 1)

/-- Accumulator-passing worker for `tokenize`: `cur` holds the characters of
the token currently being read, in reverse order. -/
def tokenizeAux : List Char → Str → List Str
  | [], cur => if cur.isEmpty then [] else [cur.reverse]
  | c :: rest, cur =>
    if cppIsSpace c then
      if cur.isEmpty then tokenizeAux rest [] else cur.reverse :: tokenizeAux rest []
    else tokenizeAux rest (c :: cur)

/-- Whitespace tokenization as performed by `std::istream_iterator<string>` in
`Console::autoComplete`: maximal runs of non-whitespace characters. -/
def tokenize (s : Str) : List Str := tokenizeAux s []

/-- Result of a command callback: a successful string, or one of the two
exception kinds caught at the dispatch boundary in `Console::submitCommand`. -/
inductive CbResult where
  | ok (s : Str)
  | outOfRange
  | invalidArgument
deriving Repr

/-- One entry of `m_Commands2`: the `ConsoleCommand` struct. Every token
generator is modelled by the alias-group list it returns (generators are pure
zero-argument callables per the spec, re-invoked fresh on every use). -/
structure ConsoleCommand where
  generators : List (List (List Str))
  callback : List Str → CbResult
  numFixTokens : Nat

/-- Modelled from the spec: the helper `Utils::findNameInGroups` used by
`Console::determineCommand`, whose source is not part of this repository
snapshot; per the spec it tests whether the token "equals (case-sensitively,
exact full-string match, not prefix/substring) any alias in any group
returned", yielding the matching group or an empty group. -/
def findNameInGroups (groups : List (List Str)) (name : Str) : List Str :=
  match groups.find? (fun g => g.contains name) with
  | some g => g
  | none => []

/-- The inner all-fixed-stages-matched loop of `Console::determineCommand`. -/
def fixedTokensMatch (cmd : ConsoleCommand) (tokens : List Str) : Bool :=
  (List.range cmd.numFixTokens).all fun i =>
    !(findNameInGroups (cmd.generators.getD i []) (tokens.getD i [])).isEmpty

/-- A command is accepted by `determineCommand` when it has at most as many
fixed tokens as the input and every fixed stage matches. -/
def cmdAccepts (cmd : ConsoleCommand) (tokens : List Str) : Bool :=
  decide (cmd.numFixTokens ≤ tokens.length) && fixedTokensMatch cmd tokens

/-- The command scan of `Console::determineCommand`, starting at index `i`. -/
def determineCommandFrom (tokens : List Str) : Nat → List ConsoleCommand → Int
  | _, [] => -1
  | i, c :: cs =>
      if cmdAccepts c tokens then (i : Int) else determineCommandFrom tokens (i + 1) cs

/-- `Console::determineCommand`: the first registered command whose fixed
tokens all match, or `-1`. -/
def determineCommand (cmds : List ConsoleCommand) (tokens : List Str) : Int :=
  determineCommandFrom tokens 0 cmds

/-- The transient `MatchInfo` record of `Console.cpp`; `pos = none` plays the
role of `std::string::npos`. -/
structure MatchInfo where
  pos : Option Nat
  notMatchingCharCount : Nat
  commandID : Nat
  groupID : Nat
  candidate : Str
  candidateLowered : Str
deriving DecidableEq, Repr

/-- Comparison of positions where `npos` (`none`) is the largest value, as in
the `size_t` comparison of `MatchInfo::compare`. -/
def posLt : Option Nat → Option Nat → Bool
  | none, _ => false
  | some _, none => true
  | some x, some y => decide (x < y)

/-- `MatchInfo::compare`: ascending by position, then by length gap. -/
def MatchInfo.lt (a b : MatchInfo) : Bool :=
  if a.pos ≠ b.pos then posLt a.pos b.pos
  else decide (a.notMatchingCharCount < b.notMatchingCharCount)

/-- Builds the `MatchInfo` for one alias against the (lowered) typed token, as
in the inner candidate loop of `Console::autoComplete`. -/
def mkInfo (token : Str) (cmdID groupID : Nat) (candidate : Str) : MatchInfo :=
  let cl := lowerStr candidate
  { pos := strFind cl token
    notMatchingCharCount := cl.length - token.length
    commandID := cmdID
    groupID := groupID
    candidate := candidate
    candidateLowered := cl }

/-- Keeps the smaller of two match infos, preferring the earlier one on ties,
matching `groupInfos.at(0)` after sorting by `MatchInfo::compare`. -/
def chooseBetter (best cur : MatchInfo) : MatchInfo :=
  if MatchInfo.lt cur best then cur else best

/-- Best `MatchInfo` of one alias group for the given lowered token, or `none`
for an empty group (which the code skips with `continue`). -/
def groupBest (token : Str) (cmdID groupID : Nat) (g : List Str) : Option MatchInfo :=
  match g.map (mkInfo token cmdID groupID) with
  | [] => none
  | i :: is => some (is.foldl chooseBetter i)

/-- Classifies one group's best match into the starts-with or in-middle bucket
(accumulated in order), discarding non-matches. -/
def classifyStep (token : Str) (cmdID : Nat)
    (acc : List MatchInfo × List MatchInfo) (p : Nat × List Str) :
    List MatchInfo × List MatchInfo :=
  match groupBest token cmdID p.1 p.2 with
  | none => acc
  | some best =>
    if best.pos = some 0 then (acc.1 ++ [best], acc.2)
    else if best.pos ≠ none then (acc.1, acc.2 ++ [best])
    else acc

/-- Processes one registered command inside the per-token loop of
`Console::autoComplete`: a still-alive command whose relevant length exceeds
the token index is tentatively killed and its groups are classified. -/
def scanStep (limitToFixed : Bool) (tokenID : Nat) (token : Str)
    (acc : List Bool × List MatchInfo × List MatchInfo) (p : Nat × ConsoleCommand) :
    List Bool × List MatchInfo × List MatchInfo :=
  let cmdEnd := if limitToFixed then p.2.numFixTokens else p.2.generators.length
  if acc.1.getD p.1 false = true ∧ tokenID < cmdEnd then
    let alive1 := acc.1.set p.1 false
    let groups := p.2.generators.getD tokenID []
    let buckets := groups.enum.foldl (classifyStep token p.1) (acc.2.1, acc.2.2)
    (alive1, buckets.1, buckets.2)
  else acc

/-- The full command scan for one token position: returns the updated alive
flags together with the starts-with and in-middle buckets. -/
def scanToken (cmds : List ConsoleCommand) (limitToFixed : Bool) (tokenID : Nat)
    (token : Str) (alive : List Bool) : List Bool × List MatchInfo × List MatchInfo :=
  cmds.enum.foldl (scanStep limitToFixed tokenID token) (alive, [], [])

/-- The `commonLength` accumulator of the bucket loop. -/
def bucketCommon (b : List MatchInfo) : Nat :=
  match b with
  | [] => 0
  | first :: _ =>
    b.foldl (fun m mi => min (commonStartLength first.candidateLowered mi.candidateLowered) m)
      first.candidateLowered.length

/-- The `longestCandidateLen` accumulator of the bucket loop. -/
def bucketLongest (b : List MatchInfo) : Nat :=
  match b with
  | [] => 0
  | first :: _ =>
    b.foldl (fun m mi => max mi.candidateLowered.length m) first.candidateLowered.length

/-- Re-marks every contributing command of the selected bucket as alive. -/
def bucketMarkAlive (alive : List Bool) (b : List MatchInfo) : List Bool :=
  b.foldl (fun a mi => a.set mi.commandID true) alive

/-- Applies one (nonempty) selected bucket: marks contributors alive and, when
the common length is nonzero, rewrites the token and records exhaustion. -/
def applyBucket (alive : List Bool) (newTokens : List (Str × Bool)) (tokenID : Nat)
    (b : List MatchInfo) : List Bool × List (Str × Bool) :=
  match b with
  | [] => (alive, newTokens)
  | first :: _ =>
    let alive1 := bucketMarkAlive alive b
    let cl := bucketCommon b
    if cl ≠ 0 then
      let tokenNew := first.candidate.take cl
      (alive1, newTokens.set tokenID (tokenNew, bucketLongest b == tokenNew.length))
    else (alive1, newTokens)

/-- Bucket preference of `Console::autoComplete`: the starts-with bucket is
used when nonempty, otherwise the in-middle bucket, otherwise nothing. -/
def applyBuckets (alive : List Bool) (newTokens : List (Str × Bool)) (tokenID : Nat)
    (sw im : List MatchInfo) : List Bool × List (Str × Bool) :=
  if sw ≠ [] then applyBucket alive newTokens tokenID sw
  else if im ≠ [] then applyBucket alive newTokens tokenID im
  else (alive, newTokens)

/-- One iteration of the per-token loop of `Console::autoComplete`. -/
def tokenStep (cmds : List ConsoleCommand) (limitToFixed : Bool)
    (acc : List Bool × List (Str × Bool)) (p : Nat × Str) :
    List Bool × List (Str × Bool) :=
  let scanned := scanToken cmds limitToFixed p.1 p.2 acc.1
  applyBuckets scanned.1 acc.2 p.1 scanned.2.1 scanned.2.2

/-- The whole token loop: alive flags start all-true, the rewritten-token
accumulator starts from the typed tokens, tokens are matched lowered. -/
def runTokens (cmds : List ConsoleCommand) (limitToFixed : Bool)
    (lowered : List Str) (newTokens0 : List (Str × Bool)) :
    List Bool × List (Str × Bool) :=
  lowered.enum.foldl (tokenStep cmds limitToFixed) (List.replicate cmds.length true, newTokens0)

/-- Reassembles the edited line: every token but the last is followed by one
space; the last one also is when the original input ended in whitespace or the
token is exhausted. -/
def rejoinTokens (endsWS : Bool) : List (Str × Bool) → Str
  | [] => []
  | [p] => p.1 ++ (if endsWS || p.2 then [' '] else [])
  | p :: q :: rest => p.1 ++ ' ' :: rejoinTokens endsWS (q :: rest)

/-- `Console::autoComplete` as a pure function on the input line. Suggestion
emission (`showSuggestions`) only logs to the external sink and touches no
console state, so it does not appear in the returned value. -/
def autoComplete (cmds : List ConsoleCommand) (input : Str)
    (limitToFixed showSuggestions overwriteInput : Bool) : Str :=
  let _ := showSuggestions
  let tokens := tokenize input
  if tokens.isEmpty then input
  else
    let newTokens0 := tokens.map (fun t => (t, false))
    let lowered := tokens.map lowerStr
    let result := runTokens cmds limitToFixed lowered newTokens0
    if overwriteInput then rejoinTokens (cppIsSpace (input.getLastD ' ')) result.2
    else input

/-- Test of `Console::submitCommand`'s history guard: the command contains a
character other than a plain space (`find_first_not_of(' ') != npos`). -/
def hasNonSpace (s : Str) : Bool := s.any (fun c => c ≠ ' ')

/-- The history update at the top of `Console::submitCommand`: append unless
the line is all spaces or equal to the most recent entry. -/
def submitHistory (hist : List Str) (command : Str) : List Str :=
  if hasNonSpace command ∧ (hist.isEmpty ∨ hist.getLast? ≠ some command)
  then hist ++ [command] else hist

/-- History contents after a sequence of submissions, starting empty. -/
def historyOf (lines : List Str) : List Str := lines.foldl submitHistory []

/-- Blank in the sense of the spec: only whitespace characters. -/
def isWsOnly (s : Str) : Bool := s.all cppIsSpace

/-- The boundary test of the legacy matcher in `Console::submitCommand`: the
candidate is an exact leading substring of the input and the input either ends
there or continues with a space. -/
def legacyBoundaryMatch (candidate input : Str) : Bool :=
  (decide (input.length = candidate.length) ||
    (decide (input.length > candidate.length) &&
      decide (input.getD candidate.length ' ' = ' '))) &&
  candidate == input.take candidate.length

/-- The legacy best-match loop of `Console::submitCommand` (lines 174-194):
`bestSize`/`bestIdx` accumulate the running best; shorter candidates than the
current best are skipped. -/
def legacyLoop (input : Str) : List Str → Nat → Nat → Int → Int
  | [], _, _, bestIdx => bestIdx
  | c :: cs, i, bestSize, bestIdx =>
    if c.length < bestSize then legacyLoop input cs (i + 1) bestSize bestIdx
    else if legacyBoundaryMatch c input then legacyLoop input cs (i + 1) c.length (i : Int)
    else legacyLoop input cs (i + 1) bestSize bestIdx

/-- The legacy command matcher over `m_Commands`: index of the selected legacy
command, or `-1`. -/
def legacyBestMatch (commands : List Str) (input : Str) : Int :=
  legacyLoop input commands 0 0 (-1)

/-- Maps a callback result to the dispatched text, with the two catch clauses
of `Console::submitCommand` turned into their fixed error messages. -/
def dispatchResult : CbResult → Str
  | .ok s => s
  | .outOfRange => "error: argument out of range".toList
  | .invalidArgument => "error: invalid argument".toList

/-- Modelled from the spec: the tokenizer `Utils::split` used on the submitted
line, whose source is not part of this repository snapshot; per the spec it is
a plain whitespace-splitting utility. -/
def splitCmd (s : Str) : List Str := tokenize s

/-- The console state touched by `Console::submitCommand` and the history
navigation keys. -/
structure ConsoleState where
  commands2 : List ConsoleCommand
  commands : List Str
  commandCallbacks : List (List Str → CbResult)
  history : List Str
  historyIndex : Int
  pendingLine : Str
  typedLine : Str
  output : List Str

/-- A placeholder command used only to totalize `.at` accesses. -/
def defaultCommand : ConsoleCommand := ⟨[], fun _ => .ok [], 0⟩

/-- `Console::submitCommand`: returns the textual result and the new state. -/
def submitCommand (st : ConsoleState) (command : Str) : Str × ConsoleState :=
  let st1 := { st with history := submitHistory st.history command
                       historyIndex := -1
                       pendingLine := [] }
  if command.isEmpty then ([], st1)
  else
    let st2 := { st1 with output := (" >> ".toList ++ command) :: st1.output }
    let args := splitCmd command
    let commID := determineCommand st.commands2 args
    if commID ≠ -1 then
      let result := dispatchResult ((st.commands2.getD commID.toNat defaultCommand).callback args)
      (result, { st2 with output := result :: st2.output })
    else
      let bestIdx := legacyBestMatch st.commands command
      if bestIdx ≥ 0 then
        let result := dispatchResult
          ((st.commandCallbacks.getD bestIdx.toNat (fun _ => .ok [])) args)
        (result, { st2 with output := result :: st2.output })
      else
        ("NOTFOUND".toList,
          { st2 with output := " -- Command not found -- ".toList :: st2.output })

/-- The navigation-relevant part of a fresh `Console`: the constructor sets
`m_Config.height`, `m_HistoryIndex = 0`, registers the built-in list command
and leaves the remaining members default-constructed (empty). -/
def initNav : ConsoleState :=
  { commands2 := [⟨[[["list".toList]]], fun _ => .ok [], 1⟩]
    commands := []
    commandCallbacks := []
    history := []
    historyIndex := 0
    pendingLine := []
    typedLine := []
    output := [" ----------- REGoth Console -----------".toList] }

/-- The `GLFW_KEY_UP` branch of `Console::onKeyDown`. -/
def keyUp (s : ConsoleState) : ConsoleState :=
  if (s.history.length : Int) > s.historyIndex + 1 then
    let pending1 := if s.historyIndex < 0 then s.typedLine else s.pendingLine
    let idx1 := s.historyIndex + 1
    { s with pendingLine := pending1
             historyIndex := idx1
             typedLine := s.history.getD ((s.history.length : Int) - idx1 - 1).toNat [] }
  else s

/-- The `GLFW_KEY_DOWN` branch of `Console::onKeyDown`. -/
def keyDown (s : ConsoleState) : ConsoleState :=
  if s.historyIndex ≥ 0 then
    let idx1 := s.historyIndex - 1
    if idx1 < 0 then { s with historyIndex := idx1, typedLine := s.pendingLine }
    else { s with historyIndex := idx1
                  typedLine := s.history.getD ((s.history.length : Int) - idx1 - 1).toNat [] }
  else s

/-- The `GLFW_KEY_ENTER` branch of `Console::onKeyDown`: submit, then clear
the typed line. -/
def keyEnter (s : ConsoleState) : ConsoleState :=
  { (submitCommand s s.typedLine).2 with typedLine := [] }

/-- A command matches a token sequence in the words of the spec: it has at
most as many fixed tokens as there are tokens, and each fixed-position token
equals some alias in some group returned by the generator at that position. -/
def claimMatches (cmd : ConsoleCommand) (tokens : List Str) : Prop :=
  cmd.numFixTokens ≤ tokens.length ∧
  ∀ i < cmd.numFixTokens, ∃ g ∈ cmd.generators.getD i [], tokens.getD i [] ∈ g

/-- The registry used by concrete witnesses: the built-in list command. -/
def witnessCmds : List ConsoleCommand := [⟨[[["list".toList]]], fun _ => .ok [], 1⟩]

/-- A registry holding one command with `numFixTokens = 0`, as permitted by
`registerCommand2` (no validation happens at registration). -/
def zeroFixCmds : List ConsoleCommand := [⟨[], fun _ => .ok [], 0⟩]

/-- Registry with alias groups `save` and `saveall` used by witnesses. -/
def saveCmds : List ConsoleCommand :=
  [⟨[[["save".toList]]], fun _ => .ok [], 1⟩, ⟨[[["saveall".toList]]], fun _ => .ok [], 1⟩]

/-- A legacy command string at index `k` matches the input on a token
boundary. -/
def legacyMatchAt (commands : List Str) (input : Str) (k : Nat) : Prop :=
  k < commands.length ∧ legacyBoundaryMatch (commands.getD k []) input = true

/-- A registry of two single-alias commands `xbc` and `xybc` used by the C5
counterexample. -/
def truncCmds : List ConsoleCommand :=
  [⟨[[["xbc".toList]]], fun _ => .ok [], 1⟩, ⟨[[["xybc".toList]]], fun _ => .ok [], 1⟩]

/-- Two match infos compare equal under `MatchInfo::compare`: same position
and same length gap. -/
def sameKey (a b : MatchInfo) : Prop :=
  a.pos = b.pos ∧ a.notMatchingCharCount = b.notMatchingCharCount

/-- The command-length bound used by the scan: fixed tokens when limited,
otherwise the full generator sequence. -/
def cmdEndOf (lim : Bool) (c : ConsoleCommand) : Nat :=
  if lim then c.numFixTokens else c.generators.length

/-- The starts-with bucket contributions of one command's groups, in order. -/
def swOfGroups (tok : Str) (cid : Nat) (gl : List (Nat × List Str)) : List MatchInfo :=
  gl.filterMap (fun q => match groupBest tok cid q.1 q.2 with
    | none => none
    | some b => if b.pos = some 0 then some b else none)

/-- The in-middle bucket contributions of one command's groups, in order. -/
def imOfGroups (tok : Str) (cid : Nat) (gl : List (Nat × List Str)) : List MatchInfo :=
  gl.filterMap (fun q => match groupBest tok cid q.1 q.2 with
    | none => none
    | some b => if b.pos = some 0 then none else if b.pos ≠ none then some b else none)

/-- Alive flags after the scan processed the given commands: independent of
the typed token. -/
def aliveAfter (lim : Bool) (tid : Nat) : List (Nat × ConsoleCommand) → List Bool → List Bool
  | [], a => a
  | p :: rest, a =>
    if a.getD p.1 false = true ∧ tid < cmdEndOf lim p.2
    then aliveAfter lim tid rest (a.set p.1 false)
    else aliveAfter lim tid rest a

/-- The starts-with bucket accumulated over the command scan. -/
def swOfCmds (lim : Bool) (tid : Nat) (tok : Str) :
    List (Nat × ConsoleCommand) → List Bool → List MatchInfo
  | [], _ => []
  | p :: rest, a =>
    if a.getD p.1 false = true ∧ tid < cmdEndOf lim p.2
    then swOfGroups tok p.1 ((p.2.generators.getD tid []).enum) ++
      swOfCmds lim tid tok rest (a.set p.1 false)
    else swOfCmds lim tid tok rest a

/-- The in-middle bucket accumulated over the command scan. -/
def imOfCmds (lim : Bool) (tid : Nat) (tok : Str) :
    List (Nat × ConsoleCommand) → List Bool → List MatchInfo
  | [], _ => []
  | p :: rest, a =>
    if a.getD p.1 false = true ∧ tid < cmdEndOf lim p.2
    then imOfGroups tok p.1 ((p.2.generators.getD tid []).enum) ++
      imOfCmds lim tid tok rest (a.set p.1 false)
    else imOfCmds lim tid tok rest a

/-- Re-marks a bucket entry as an exact match at position 0 with no length
gap, the shape every entry takes when the rewritten token is completed
against itself. -/
def reMark (mi : MatchInfo) : MatchInfo :=
  { mi with pos := some 0, notMatchingCharCount := 0 }

/-- The bucket selected by the per-token loop: the starts-with bucket,
falling back to the in-middle bucket. -/
def stepSel (cmds : List ConsoleCommand) (lim : Bool) (A : List Bool) (tid : Nat)
    (tok : Str) : List MatchInfo :=
  if swOfCmds lim tid tok cmds.enum A = [] then imOfCmds lim tid tok cmds.enum A
  else swOfCmds lim tid tok cmds.enum A

/-- The alive flags after one whole token step. -/
def stepAliveOut (cmds : List ConsoleCommand) (lim : Bool) (A : List Bool) (tid : Nat)
    (tok : Str) : List Bool :=
  bucketMarkAlive (aliveAfter lim tid cmds.enum A) (stepSel cmds lim A tid tok)

/-- The optional token rewrite performed by one token step: the new text and
its exhaustion flag, or `none` when the entry is left untouched. -/
def stepUpd (cmds : List ConsoleCommand) (lim : Bool) (A : List Bool) (tid : Nat)
    (tok : Str) : Option (Str × Bool) :=
  match stepSel cmds lim A tid tok with
  | [] => none
  | first :: rest =>
    if bucketCommon (first :: rest) ≠ 0 then
      some (first.candidate.take (bucketCommon (first :: rest)),
        bucketLongest (first :: rest) ==
          (first.candidate.take (bucketCommon (first :: rest))).length)
    else none

/-- The token loop restarted at an arbitrary position, recursing over the
remaining (already lowered) tokens; `runTokens` is `runFrom` at position 0. -/
def runFrom (cmds : List ConsoleCommand) (lim : Bool) :
    Nat → List Str → (List Bool × List (Str × Bool)) → List Bool × List (Str × Bool)
  | _, [], acc => acc
  | t, tok :: rest, acc => runFrom cmds lim (t + 1) rest (tokenStep cmds lim acc (t, tok))

/-- A whitespace-free nonempty token. -/
def goodToken (s : Str) : Prop := s ≠ [] ∧ s.all (fun c => !cppIsSpace c) = true

/-- Every alias returned by every generator of every registered command is free
of whitespace characters. -/
def wsFreeCmds (cmds : List ConsoleCommand) : Prop :=
  ∀ c ∈ cmds, ∀ gen ∈ c.generators, ∀ g ∈ gen, ∀ al ∈ g,
    al.all (fun ch => !cppIsSpace ch) = true

/-- The `(aliveMask, newTokens)` pair computed by the token loop of
`Console::autoComplete` on the given input line. -/
def acRun (cmds : List ConsoleCommand) (lim : Bool) (input : Str) :
    List Bool × List (Str × Bool) :=
  runTokens cmds lim ((tokenize input).map lowerStr)
    ((tokenize input).map (fun t => (t, false)))

/-- Removes trailing spaces: the trailing-space normalization under which the
spec compares the rewritten line with the re-completed one. -/
def stripTrailing (s : Str) : Str := (s.reverse.dropWhile (fun c => c = ' ')).reverse

/-- Registry whose single command offers the whitespace-free alias `load`. -/
def idemCmds : List ConsoleCommand := [⟨[[["load".toList]]], fun _ => .ok [], 1⟩]

/-- Registry whose single command offers the space-containing alias `ab cd`. -/
def spaceAliasCmds : List ConsoleCommand := [⟨[[["ab cd".toList]]], fun _ => .ok [], 1⟩]

lemma findNameInGroups_ne_empty (groups : List (List Str)) (name : Str) :
    (!(findNameInGroups groups name).isEmpty) = true ↔ ∃ g ∈ groups, name ∈ g := by
  unfold findNameInGroups
  cases h : groups.find? (fun g => g.contains name) with
  | none =>
    constructor
    · intro hf
      simp at hf
    · rintro ⟨g, hg, hmem⟩
      have := List.find?_eq_none.mp h g hg
      simp only [List.contains, List.elem_eq_mem, decide_eq_true_eq] at this
      exact absurd hmem this
  | some g =>
    have hp := List.find?_some h
    have hmem : g ∈ groups := List.mem_of_find?_eq_some h
    simp only [List.contains, List.elem_eq_mem, decide_eq_true_eq] at hp
    constructor
    · intro _
      exact ⟨g, hmem, hp⟩
    · intro _
      cases g with
      | nil => cases hp
      | cons a as => simp

lemma cmdAccepts_iff_claimMatches (cmd : ConsoleCommand) (tokens : List Str) :
    cmdAccepts cmd tokens = true ↔ claimMatches cmd tokens := by
  unfold cmdAccepts fixedTokensMatch claimMatches
  rw [Bool.and_eq_true, decide_eq_true_iff, List.all_eq_true]
  constructor
  · rintro ⟨hle, hall⟩
    refine ⟨hle, fun i hi => ?_⟩
    exact (findNameInGroups_ne_empty _ _).mp (hall i (List.mem_range.mpr hi))
  · rintro ⟨hle, hall⟩
    refine ⟨hle, fun i hi => ?_⟩
    exact (findNameInGroups_ne_empty _ _).mpr (hall i (List.mem_range.mp hi))

lemma determineCommandFrom_first (tokens : List Str) :
    ∀ (cmds : List ConsoleCommand) (s : Nat) (i : Nat) (hi : i < cmds.length),
      cmdAccepts (cmds.get ⟨i, hi⟩) tokens = true →
      ∃ j, j ≤ i ∧ ∃ hj : j < cmds.length,
        cmdAccepts (cmds.get ⟨j, hj⟩) tokens = true ∧
        (∀ k (hk : k < cmds.length), k < j →
          cmdAccepts (cmds.get ⟨k, hk⟩) tokens = false) ∧
        determineCommandFrom tokens s cmds = ((s + j : Nat) : Int) ∧
        ∀ tail, determineCommandFrom tokens s (cmds.take (j + 1) ++ tail) = ((s + j : Nat) : Int)
  | [], s, i, hi => by simp at hi
  | c :: cs, s, i, hi => by
    intro hacc
    by_cases hc : cmdAccepts c tokens = true
    · refine ⟨0, Nat.zero_le _, by simp, by simpa using hc, ?_, ?_, ?_⟩
      · intro k hk hk0
        exact absurd hk0 (Nat.not_lt_zero k)
      · simp [determineCommandFrom, hc]
      · intro tail
        simp [determineCommandFrom, hc]
    · cases i with
      | zero => exact absurd (by simpa using hacc) hc
      | succ i0 =>
        have hi0 : i0 < cs.length := by simpa using hi
        have hacc0 : cmdAccepts (cs.get ⟨i0, hi0⟩) tokens = true := by
          simpa using hacc
        obtain ⟨j0, hj0le, hj0, haccj, hbefore, hval, htail⟩ :=
          determineCommandFrom_first tokens cs (s + 1) i0 hi0 hacc0
        refine ⟨j0 + 1, Nat.succ_le_succ hj0le, by simpa using Nat.succ_lt_succ hj0,
          by simpa using haccj, ?_, ?_, ?_⟩
        · intro k hk hklt
          cases k with
          | zero => simpa using Bool.eq_false_iff.mpr hc
          | succ k0 =>
            have hk0 : k0 < cs.length := by simpa using hk
            have := hbefore k0 hk0 (Nat.lt_of_succ_lt_succ hklt)
            simpa using this
        · have : determineCommandFrom tokens s (c :: cs) = determineCommandFrom tokens (s + 1) cs := by
            simp [determineCommandFrom, hc]
          rw [this, hval]
          push_cast
          ring_nf
        · intro tail
          have heq : (c :: cs).take (j0 + 1 + 1) ++ tail = c :: (cs.take (j0 + 1) ++ tail) := by
            simp [List.take_succ_cons]
          rw [heq]
          have : determineCommandFrom tokens s (c :: (cs.take (j0 + 1) ++ tail)) =
              determineCommandFrom tokens (s + 1) (cs.take (j0 + 1) ++ tail) := by
            simp [determineCommandFrom, hc]
          rw [this, htail tail]
          push_cast
          ring_nf

/-- Claim C1: when some registered command's fixed tokens all match the token
sequence (each token equals some alias in some group produced by that
command's generator at that position), `determineCommand` returns the index of
the first such command in registration order; every earlier command fails the
match, and the result is unchanged by whatever commands follow the accepted
one, so commands registered after it are never evaluated. -/
theorem determineCommand_returns_first_match (cmds : List ConsoleCommand)
    (tokens : List Str) (i : Nat) (hi : i < cmds.length)
    (hm : claimMatches (cmds.get ⟨i, hi⟩) tokens) :
    ∃ j, j ≤ i ∧ ∃ hj : j < cmds.length,
      claimMatches (cmds.get ⟨j, hj⟩) tokens ∧
      (∀ k (hk : k < cmds.length), k < j → ¬ claimMatches (cmds.get ⟨k, hk⟩) tokens) ∧
      determineCommand cmds tokens = (j : Int) ∧
      ∀ tail, determineCommand (cmds.take (j + 1) ++ tail) tokens = (j : Int) := by
  obtain ⟨j, hji, hj, haccj, hbefore, hval, htail⟩ :=
    determineCommandFrom_first tokens cmds 0 i hi ((cmdAccepts_iff_claimMatches _ _).mpr hm)
  refine ⟨j, hji, hj, (cmdAccepts_iff_claimMatches _ _).mp haccj, ?_, ?_, ?_⟩
  · intro k hk hklt hcm
    have := hbefore k hk hklt
    rw [(cmdAccepts_iff_claimMatches _ _).symm.mp ?_] at this
    · cases this
    · exact hcm
  · simpa [determineCommand] using hval
  · intro tail
    simpa [determineCommand] using htail tail

/-- Witness for C1: on the registry holding the built-in list command, the
token sequence consisting of the token `list` matches command 0, and
`determineCommand` returns 0. -/
theorem determineCommand_returns_first_match_witness :
    ∃ j, j ≤ 0 ∧ ∃ hj : j < witnessCmds.length,
      claimMatches (witnessCmds.get ⟨j, hj⟩) ["list".toList] ∧
      (∀ k (hk : k < witnessCmds.length), k < j →
        ¬ claimMatches (witnessCmds.get ⟨k, hk⟩) ["list".toList]) ∧
      determineCommand witnessCmds ["list".toList] = (j : Int) ∧
      ∀ tail, determineCommand (witnessCmds.take (j + 1) ++ tail) ["list".toList] = (j : Int) :=
  determineCommand_returns_first_match witnessCmds ["list".toList] 0 (by simp [witnessCmds])
    ⟨by simp [witnessCmds], by
      intro i hi
      simp only [witnessCmds, List.length_singleton, List.get] at hi ⊢
      have hi0 : i = 0 := by omega
      subst hi0
      exact ⟨["list".toList], by simp, by simp⟩⟩

/-- Counterexample for C3: with a command of `fixedTokenCount = 0` registered,
`determineCommand` applied to the empty token sequence returns that command's
id `0` instead of the not-found sentinel `-1`: the inner stage loop runs zero
iterations, so `allStagesMatched` stays true. -/
theorem determineCommand_empty_zero_fix_counterexample :
    determineCommand zeroFixCmds [] = 0 ∧ (0 : Int) ≠ -1 := by
  constructor
  · rfl
  · decide

/-- Claim C3 as amended: `determineCommand` returns the not-found sentinel
`-1` on every token sequence that is shorter than every registered command's
`fixedTokenCount`; in particular it returns `-1` on the empty sequence
whenever every registered command has `fixedTokenCount ≥ 1`, but a command
with `fixedTokenCount = 0` matches every sequence, including the empty one. -/
theorem determineCommand_short_input_not_found (cmds : List ConsoleCommand)
    (tokens : List Str) (h : ∀ c ∈ cmds, tokens.length < c.numFixTokens) :
    determineCommand cmds tokens = -1 := by
  suffices haux : ∀ (cs : List ConsoleCommand) (s : Nat), (∀ c ∈ cs, tokens.length < c.numFixTokens) →
      determineCommandFrom tokens s cs = -1 by
    exact haux cmds 0 h
  intro cs
  induction cs with
  | nil => intro s _; rfl
  | cons c cs ih =>
    intro s hall
    have hc : ¬ c.numFixTokens ≤ tokens.length :=
      Nat.not_le_of_lt (hall c (List.mem_cons_self c cs))
    have hacc : cmdAccepts c tokens = false := by
      unfold cmdAccepts
      simp [hc]
    simp only [determineCommandFrom, hacc, Bool.false_eq_true, if_false]
    exact ih (s + 1) (fun d hd => hall d (List.mem_cons_of_mem c hd))

/-- Witness for the amended C3: the registry holding only the built-in list
command (one fixed token) resolves the empty token sequence to `-1`. -/
theorem determineCommand_short_input_not_found_witness :
    determineCommand witnessCmds [] = -1 :=
  determineCommand_short_input_not_found witnessCmds [] (by
    intro c hc
    rw [witnessCmds, List.mem_singleton] at hc
    subst hc
    decide)

/-- Claim C10: with `overwriteInput = false`, `autoComplete` returns the input
line unchanged for every registry, line and flag combination: the line is only
assigned inside the rewrite branch. -/
theorem autoComplete_no_rewrite_preserves_input (cmds : List ConsoleCommand)
    (input : Str) (limitToFixed showSuggestions : Bool) :
    autoComplete cmds input limitToFixed showSuggestions false = input := by
  unfold autoComplete
  by_cases h : (tokenize input).isEmpty <;> simp [h]

/-- Claim C2: when some alias group's best candidate starts with the typed
token (the starts-with bucket of the scan is nonempty), the whole outcome of
the token step — rewritten token and re-marked alive set — is the application
of the starts-with bucket alone; the in-middle bucket never enters it. -/
theorem prefix_bucket_dominates (cmds : List ConsoleCommand) (limitToFixed : Bool)
    (alive : List Bool) (newTokens : List (Str × Bool)) (tokenID : Nat) (token : Str)
    (h : (scanToken cmds limitToFixed tokenID token alive).2.1 ≠ []) :
    tokenStep cmds limitToFixed (alive, newTokens) (tokenID, token) =
      applyBucket (scanToken cmds limitToFixed tokenID token alive).1 newTokens tokenID
        (scanToken cmds limitToFixed tokenID token alive).2.1 := by
  unfold tokenStep applyBuckets
  simp [h]

/-- Witness for C2: for the lowered token `sa` against the save/saveall
registry the starts-with bucket is nonempty and decides the step. -/
theorem prefix_bucket_dominates_witness :
    tokenStep saveCmds false ([true, true], [("sa".toList, false)]) (0, "sa".toList) =
      applyBucket (scanToken saveCmds false 0 "sa".toList [true, true]).1
        [("sa".toList, false)] 0
        (scanToken saveCmds false 0 "sa".toList [true, true]).2.1 :=
  prefix_bucket_dominates saveCmds false [true, true] [("sa".toList, false)] 0 "sa".toList
    (by decide)

/-- Claim C9: submitting the empty line returns the empty string, leaves the
history untouched and writes nothing to the output log; this is distinct from
the not-found outcome on a nonempty line, which returns the sentinel
`NOTFOUND` and logs the echo plus a not-found message. -/
theorem submitCommand_empty_is_noop (st : ConsoleState) :
    (submitCommand st []).1 = [] ∧
    (submitCommand st []).2.history = st.history ∧
    (submitCommand st []).2.output = st.output ∧
    ∀ cmd : Str, cmd ≠ [] →
      determineCommand st.commands2 (splitCmd cmd) = -1 →
      legacyBestMatch st.commands cmd = -1 →
      (submitCommand st cmd).1 = "NOTFOUND".toList ∧
      (submitCommand st cmd).2.output =
        " -- Command not found -- ".toList :: (" >> ".toList ++ cmd) :: st.output := by
  have hhist : submitHistory st.history [] = st.history := by
    unfold submitHistory hasNonSpace
    simp
  refine ⟨?_, ?_, ?_, ?_⟩
  · simp [submitCommand]
  · simp [submitCommand, hhist]
  · simp [submitCommand]
  · intro cmd hne hdet hleg
    have hempty : cmd.isEmpty = false := by
      cases cmd with
      | nil => exact absurd rfl hne
      | cons a as => rfl
    constructor
    · simp [submitCommand, hempty, hdet, hleg]
    · simp [submitCommand, hempty, hdet, hleg]

/-- Witness for C9: on a fresh console, submitting the empty line is a no-op
and submitting `xyz` yields the not-found sentinel with the two log lines. -/
theorem submitCommand_empty_is_noop_witness :
    (submitCommand initNav []).1 = [] ∧
    (submitCommand initNav "xyz".toList).1 = "NOTFOUND".toList :=
  ⟨(submitCommand_empty_is_noop initNav).1,
    ((submitCommand_empty_is_noop initNav).2.2.2 "xyz".toList (by decide) (by decide)
      (by decide)).1⟩

/-- Counterexample for C4: two legacy command strings `ab` registered at
indices 0 and 1 both match the input `ab` with equal length, yet the loop
returns index 1 — the `<` guard lets an equal-length later match overwrite
the running best, so the LAST matching registration wins, not the first. -/
theorem legacy_tie_latest_counterexample :
    legacyMatchAt ["ab".toList, "ab".toList] "ab".toList 0 ∧
    legacyMatchAt ["ab".toList, "ab".toList] "ab".toList 1 ∧
    legacyBestMatch ["ab".toList, "ab".toList] "ab".toList = 1 ∧ (1 : Int) ≠ 0 := by
  refine ⟨⟨by decide, by decide⟩, ⟨by decide, by decide⟩, by decide, by decide⟩

lemma legacyLoop_spec (input : Str) (cs : List Str) :
    ∀ (i s : Nat) (b : Int),
      (∃ k, k < cs.length ∧ legacyBoundaryMatch (cs.getD k []) input = true ∧
        s ≤ (cs.getD k []).length ∧
        (∀ k', k' < cs.length → legacyBoundaryMatch (cs.getD k' []) input = true →
          s ≤ (cs.getD k' []).length → (cs.getD k' []).length ≤ (cs.getD k []).length) ∧
        (∀ k', k' < cs.length → legacyBoundaryMatch (cs.getD k' []) input = true →
          (cs.getD k' []).length = (cs.getD k []).length → k' ≤ k) ∧
        legacyLoop input cs i s b = ((i + k : Nat) : Int)) ∨
      ((∀ k, k < cs.length → legacyBoundaryMatch (cs.getD k []) input = true →
          (cs.getD k []).length < s) ∧
        legacyLoop input cs i s b = b) := by
  induction cs with
  | nil =>
    intro i s b
    right
    exact ⟨fun k hk => absurd hk (by simp), rfl⟩
  | cons c cs ih =>
    intro i s b
    by_cases hskip : c.length < s
    · have hloop : legacyLoop input (c :: cs) i s b = legacyLoop input cs (i + 1) s b := by
        simp [legacyLoop, hskip]
      rcases ih (i + 1) s b with ⟨k, hk, hb, hsle, hmax, htie, hres⟩ | ⟨hnone, hres⟩
      · left
        refine ⟨k + 1, by simpa using Nat.succ_lt_succ hk, by simpa using hb,
          by simpa using hsle, ?_, ?_, ?_⟩
        · intro k' hk' hb' hs'
          cases k' with
          | zero =>
            simp only [List.getD_cons_zero] at hs'
            omega
          | succ k0 =>
            simp only [List.getD_cons_succ] at hb' hs' ⊢
            exact hmax k0 (by simpa using hk') hb' hs'
        · intro k' hk' hb' hlen'
          cases k' with
          | zero =>
            simp only [List.getD_cons_zero, List.getD_cons_succ] at hlen'
            have : s ≤ c.length := by
              rw [hlen']
              exact hsle
            omega
          | succ k0 =>
            simp only [List.getD_cons_succ] at hb' hlen' ⊢
            exact Nat.succ_le_succ (htie k0 (by simpa using hk') hb' hlen')
        · rw [hloop, hres]
          congr 1
          omega
      · right
        refine ⟨?_, by rw [hloop, hres]⟩
        intro k hk hb
        cases k with
        | zero => simpa using hskip
        | succ k0 =>
          simp only [List.getD_cons_succ] at hb ⊢
          exact hnone k0 (by simpa using hk) hb
    · by_cases hb : legacyBoundaryMatch c input = true
      · have hloop : legacyLoop input (c :: cs) i s b =
            legacyLoop input cs (i + 1) c.length (i : Int) := by
          simp [legacyLoop, hskip, hb]
        rcases ih (i + 1) c.length (i : Int) with
          ⟨k, hk, hbk, hsle, hmax, htie, hres⟩ | ⟨hnone, hres⟩
        · left
          refine ⟨k + 1, by simpa using Nat.succ_lt_succ hk, by simpa using hbk,
            by simp only [List.getD_cons_succ]; omega, ?_, ?_, ?_⟩
          · intro k' hk' hb' hs'
            cases k' with
            | zero =>
              simp only [List.getD_cons_zero, List.getD_cons_succ] at hs' ⊢
              exact hsle
            | succ k0 =>
              simp only [List.getD_cons_succ] at hb' hs' ⊢
              by_cases hcl : c.length ≤ (cs.getD k0 []).length
              · exact hmax k0 (by simpa using hk') hb' hcl
              · have h1 : (cs.getD k0 []).length < c.length := Nat.lt_of_not_le hcl
                omega
          · intro k' hk' hb' hlen'
            cases k' with
            | zero => exact Nat.zero_le _
            | succ k0 =>
              simp only [List.getD_cons_succ] at hb' hlen' ⊢
              refine Nat.succ_le_succ (htie k0 (by simpa using hk') hb' hlen')
          · rw [hloop, hres]
            congr 1
            omega
        · left
          refine ⟨0, by simp, by simpa using hb, by simpa using Nat.le_of_not_lt hskip,
            ?_, ?_, ?_⟩
          · intro k' hk' hb' hs'
            cases k' with
            | zero => simp
            | succ k0 =>
              simp only [List.getD_cons_zero, List.getD_cons_succ] at hb' hs' ⊢
              have := hnone k0 (by simpa using hk') hb'
              omega
          · intro k' hk' hb' hlen'
            cases k' with
            | zero => exact Nat.le_refl 0
            | succ k0 =>
              simp only [List.getD_cons_zero, List.getD_cons_succ] at hb' hlen' ⊢
              have := hnone k0 (by simpa using hk') hb'
              omega
          · rw [hloop, hres]
            simp
      · have hloop : legacyLoop input (c :: cs) i s b = legacyLoop input cs (i + 1) s b := by
          simp [legacyLoop, hskip, hb]
        rcases ih (i + 1) s b with ⟨k, hk, hbk, hsle, hmax, htie, hres⟩ | ⟨hnone, hres⟩
        · left
          refine ⟨k + 1, by simpa using Nat.succ_lt_succ hk, by simpa using hbk,
            by simpa using hsle, ?_, ?_, ?_⟩
          · intro k' hk' hb' hs'
            cases k' with
            | zero =>
              simp only [List.getD_cons_zero] at hb'
              exact absurd hb' hb
            | succ k0 =>
              simp only [List.getD_cons_succ] at hb' hs' ⊢
              exact hmax k0 (by simpa using hk') hb' hs'
          · intro k' hk' hb' hlen'
            cases k' with
            | zero =>
              simp only [List.getD_cons_zero] at hb'
              exact absurd hb' hb
            | succ k0 =>
              simp only [List.getD_cons_succ] at hb' hlen' ⊢
              exact Nat.succ_le_succ (htie k0 (by simpa using hk') hb' hlen')
          · rw [hloop, hres]
            congr 1
            omega
        · right
          refine ⟨?_, by rw [hloop, hres]⟩
          intro k hk hbk
          cases k with
          | zero =>
            simp only [List.getD_cons_zero] at hbk
            exact absurd hbk hb
          | succ k0 =>
            simp only [List.getD_cons_succ] at hbk ⊢
            exact hnone k0 (by simpa using hk) hbk

/-- Claim C4 as amended: when any legacy command string matches the input on a
token boundary, the fallback selects one of maximal length among the matches,
and among equal-length matches (necessarily identical strings) the one
registered LAST wins, not the first. -/
theorem legacy_picks_longest_latest (commands : List Str) (input : Str)
    (h : ∃ k, legacyMatchAt commands input k) :
    ∃ j, legacyMatchAt commands input j ∧
      legacyBestMatch commands input = (j : Int) ∧
      (∀ k, legacyMatchAt commands input k →
        (commands.getD k []).length ≤ (commands.getD j []).length) ∧
      (∀ k, legacyMatchAt commands input k →
        (commands.getD k []).length = (commands.getD j []).length → k ≤ j) := by
  rcases legacyLoop_spec input commands 0 0 (-1) with
    ⟨k, hk, hb, _, hmax, htie, hres⟩ | ⟨hnone, _⟩
  · refine ⟨k, ⟨hk, hb⟩, ?_, ?_, ?_⟩
    · unfold legacyBestMatch
      rw [hres]
      simp
    · intro k' hk'
      exact hmax k' hk'.1 hk'.2 (Nat.zero_le _)
    · intro k' hk' hlen
      exact htie k' hk'.1 hk'.2 hlen
  · rcases h with ⟨k, hk, hb⟩
    have := hnone k hk hb
    omega

/-- Witness for the amended C4: on the duplicate-`ab` registry with input
`ab`, the selected index is 1 and it is maximal-length and latest. -/
theorem legacy_picks_longest_latest_witness :
    ∃ j, legacyMatchAt ["ab".toList, "ab".toList] "ab".toList j ∧
      legacyBestMatch ["ab".toList, "ab".toList] "ab".toList = (j : Int) ∧
      (∀ k, legacyMatchAt ["ab".toList, "ab".toList] "ab".toList k →
        ((["ab".toList, "ab".toList] : List Str).getD k []).length ≤
          ((["ab".toList, "ab".toList] : List Str).getD j []).length) ∧
      (∀ k, legacyMatchAt ["ab".toList, "ab".toList] "ab".toList k →
        ((["ab".toList, "ab".toList] : List Str).getD k []).length =
          ((["ab".toList, "ab".toList] : List Str).getD j []).length → k ≤ j) :=
  legacy_picks_longest_latest ["ab".toList, "ab".toList] "ab".toList
    ⟨0, by decide, by decide⟩

/-- Counterexample for C7: a line consisting of one tab character is
whitespace-only, yet submitting it stores it — the guard checks
`find_first_not_of(' ')`, which only skips plain spaces. -/
theorem history_stores_tab_counterexample :
    historyOf [['\t']] = [['\t']] ∧ isWsOnly ['\t'] = true := by
  constructor
  · rfl
  · decide

lemma submitHistory_space_only (h : List Str) (s : Str) (hs : hasNonSpace s = false) :
    submitHistory h s = h := by
  unfold submitHistory
  simp [hs]

lemma submitHistory_dup (h : List Str) (s : Str) (hs : h.getLast? = some s) :
    submitHistory h s = h := by
  unfold submitHistory
  have hne : h ≠ [] := by
    intro heq
    subst heq
    simp at hs
  simp [hs, hne]

lemma submitHistory_preserves (h : List Str) (s : Str)
    (hin : ∀ x ∈ h, hasNonSpace x = true) (hch : List.Chain' (· ≠ ·) h) :
    (∀ x ∈ submitHistory h s, hasNonSpace x = true) ∧
      List.Chain' (· ≠ ·) (submitHistory h s) := by
  unfold submitHistory
  split_ifs with hc
  · obtain ⟨hs, hor⟩ := hc
    constructor
    · intro x hx
      rcases List.mem_append.mp hx with hx | hx
      · exact hin x hx
      · rw [List.mem_singleton.mp hx]
        exact hs
    · rw [List.chain'_append]
      refine ⟨hch, List.chain'_singleton s, ?_⟩
      intro x hx y hy
      simp only [List.head?_cons, Option.mem_def, Option.some.injEq] at hy
      subst hy
      rcases hor with hemp | hne
      · rw [List.isEmpty_iff.mp hemp] at hx
        simp at hx
      · intro heq
        subst heq
        exact hne hx
  · exact ⟨hin, hch⟩

lemma historyOf_invariant_aux :
    ∀ (lines : List Str) (h : List Str),
      (∀ x ∈ h, hasNonSpace x = true) → List.Chain' (· ≠ ·) h →
      (∀ x ∈ lines.foldl submitHistory h, hasNonSpace x = true) ∧
        List.Chain' (· ≠ ·) (lines.foldl submitHistory h) := by
  intro lines
  induction lines with
  | nil => intro h hin hch; exact ⟨hin, hch⟩
  | cons l ls ih =>
    intro h hin hch
    have hstep := submitHistory_preserves h l hin hch
    exact ih (submitHistory h l) hstep.1 hstep.2

/-- Claim C7 as amended: after any sequence of submissions the history
contains no line made only of spaces and no two consecutive equal entries;
submitting a line made only of spaces, or one equal to the most recent entry,
adds no entry. (A line of other whitespace, such as a tab, does get stored:
the code strips only the plain space character.) -/
theorem history_no_space_only_no_consecutive_dup (lines : List Str) :
    (∀ x ∈ historyOf lines, hasNonSpace x = true) ∧
    List.Chain' (· ≠ ·) (historyOf lines) ∧
    (∀ s, hasNonSpace s = false → submitHistory (historyOf lines) s = historyOf lines) ∧
    (∀ s, (historyOf lines).getLast? = some s →
      submitHistory (historyOf lines) s = historyOf lines) := by
  obtain ⟨h1, h2⟩ := historyOf_invariant_aux lines [] (by simp) List.chain'_nil
  exact ⟨h1, h2, fun s hs => submitHistory_space_only _ s hs,
    fun s hs => submitHistory_dup _ s hs⟩

/-- Witness for the amended C7: after submitting `foo`, submitting three
spaces or `foo` again leaves the single-entry history unchanged. -/
theorem history_no_space_only_no_consecutive_dup_witness :
    submitHistory (historyOf ["foo".toList]) "   ".toList = historyOf ["foo".toList] ∧
    submitHistory (historyOf ["foo".toList]) "foo".toList = historyOf ["foo".toList] :=
  ⟨(history_no_space_only_no_consecutive_dup ["foo".toList]).2.2.1 "   ".toList (by decide),
    (history_no_space_only_no_consecutive_dup ["foo".toList]).2.2.2 "foo".toList (by decide)⟩

/-- Claim C8 evaluated on the code: the constructor sets `m_HistoryIndex = 0`
while the history is empty, so the freshly constructed console violates the
claimed invariant `index ∈ [-1, length-1] = [-1, -1]`; observably, pressing
key-down on a fresh console erases a typed line (replacing it with the empty
pending buffer) instead of being a no-op. -/
theorem init_history_index_out_of_range :
    initNav.historyIndex = 0 ∧ initNav.history.length = 0 ∧
    ¬ (initNav.historyIndex ≤ (initNav.history.length : Int) - 1) ∧
    (keyDown { initNav with typedLine := "abc".toList }).typedLine = [] ∧
    (keyDown { initNav with typedLine := "abc".toList }).historyIndex = -1 := by
  refine ⟨rfl, rfl, by decide, rfl, rfl⟩

lemma commonStartLength_ge (t : Str) :
    ∀ (a b : Str), t.isPrefixOf a = true → t.isPrefixOf b = true →
      t.length ≤ commonStartLength a b := by
  induction t with
  | nil => intro a b _ _; simp
  | cons c t0 ih =>
    intro a b ha hb
    cases a with
    | nil => simp [List.isPrefixOf] at ha
    | cons a0 a1 =>
      cases b with
      | nil => simp [List.isPrefixOf] at hb
      | cons b0 b1 =>
        simp only [List.isPrefixOf, Bool.and_eq_true, beq_iff_eq] at ha hb
        obtain ⟨rfl, ha1⟩ := ha
        obtain ⟨hb0, hb1⟩ := hb
        unfold commonStartLength
        rw [if_pos hb0]
        simpa using ih a1 b1 ha1 hb1

lemma foldl_min_ge (ref : Str) (n : Nat) :
    ∀ (l : List MatchInfo) (acc : Nat),
      (∀ mi ∈ l, n ≤ commonStartLength ref mi.candidateLowered) → n ≤ acc →
      n ≤ l.foldl (fun m mi => min (commonStartLength ref mi.candidateLowered) m) acc := by
  intro l
  induction l with
  | nil => intro acc _ hacc; exact hacc
  | cons mi l0 ih =>
    intro acc hall hacc
    refine ih _ (fun x hx => hall x (List.mem_cons_of_mem mi hx)) ?_
    exact le_min (hall mi (List.mem_cons_self mi l0)) hacc

lemma foldl_min_le_acc (ref : Str) :
    ∀ (l : List MatchInfo) (acc : Nat),
      l.foldl (fun m mi => min (commonStartLength ref mi.candidateLowered) m) acc ≤ acc := by
  intro l
  induction l with
  | nil => intro acc; exact Nat.le_refl acc
  | cons mi l0 ih =>
    intro acc
    exact le_trans (ih _) (min_le_right _ _)

/-- Counterexample for C5: with candidates `xbc` and `xybc`, completing the
typed token `bc` selects the in-middle bucket, whose common prefix is the
single character `x`: the token is rewritten to `x`, strictly shorter than
the typed `bc`, even though `commonLength = 1 > 0`. -/
theorem autoComplete_truncates_counterexample :
    autoComplete truncCmds "bc".toList false false true = "x".toList ∧
    ("x".toList : Str).length < ("bc".toList : Str).length := by
  constructor
  · rfl
  · decide

/-- Claim C5 as amended: the starts-with bucket never truncates — whenever
the selected bucket consists of best matches whose lowered candidates start
with the (nonempty) typed token, the bucket is applied with a nonzero common
length and rewrites the token to text at least as long as the typed token.
The in-middle bucket can rewrite to shorter text, as the counterexample
shows. -/
theorem prefix_bucket_never_truncates (token : Str) (alive : List Bool)
    (newTokens : List (Str × Bool)) (tokenID : Nat) (sw : List MatchInfo)
    (hne : sw ≠ [])
    (hpre : ∀ mi ∈ sw, token.isPrefixOf mi.candidateLowered = true)
    (hlen : ∀ mi ∈ sw, mi.candidateLowered.length = mi.candidate.length)
    (htok : token ≠ []) :
    ∃ newText ex, applyBucket alive newTokens tokenID sw =
      (bucketMarkAlive alive sw, newTokens.set tokenID (newText, ex)) ∧
      token.length ≤ newText.length := by
  cases sw with
  | nil => exact absurd rfl hne
  | cons first rest =>
    have hfirstpre := hpre first (List.mem_cons_self first rest)
    have hreflen : token.length ≤ first.candidateLowered.length :=
      (List.isPrefixOf_iff_prefix.mp hfirstpre).length_le
    have hcommon : token.length ≤ bucketCommon (first :: rest) := by
      unfold bucketCommon
      refine foldl_min_ge first.candidateLowered token.length (first :: rest) _ ?_ hreflen
      intro mi hmi
      exact commonStartLength_ge token _ _ hfirstpre (hpre mi hmi)
    have hcomle : bucketCommon (first :: rest) ≤ first.candidateLowered.length := by
      unfold bucketCommon
      exact foldl_min_le_acc _ _ _
    have htokpos : 0 < token.length := List.length_pos.mpr htok
    have hnz : bucketCommon (first :: rest) ≠ 0 := by omega
    refine ⟨first.candidate.take (bucketCommon (first :: rest)),
      bucketLongest (first :: rest) == (first.candidate.take (bucketCommon (first :: rest))).length,
      ?_, ?_⟩
    · unfold applyBucket
      simp [hnz]
    · rw [List.length_take]
      have := hlen first (List.mem_cons_self first rest)
      omega

/-- Witness for the amended C5: a one-entry starts-with bucket built from the
alias `save` and token `sa` rewrites to text at least two characters long. -/
theorem prefix_bucket_never_truncates_witness :
    ∃ newText ex,
      applyBucket [true] [("sa".toList, false)] 0 [mkInfo "sa".toList 0 0 "save".toList] =
        (bucketMarkAlive [true] [mkInfo "sa".toList 0 0 "save".toList],
          List.set [("sa".toList, false)] 0 (newText, ex)) ∧
      ("sa".toList : Str).length ≤ newText.length :=
  prefix_bucket_never_truncates "sa".toList [true] [("sa".toList, false)] 0
    [mkInfo "sa".toList 0 0 "save".toList] (by decide)
    (by intro mi hmi; rw [List.mem_singleton.mp hmi]; decide)
    (by intro mi hmi; rw [List.mem_singleton.mp hmi]; decide) (by decide)

lemma posLt_irrefl (x : Option Nat) : posLt x x = false := by
  cases x
  · rfl
  · simp [posLt]

lemma posLt_asymm {x y : Option Nat} (h : posLt x y = true) : posLt y x = false := by
  cases x <;> cases y <;> simp_all [posLt]
  omega

lemma posLt_trans {x y z : Option Nat} (h1 : posLt x y = true) (h2 : posLt y z = true) :
    posLt x z = true := by
  cases x <;> cases y <;> cases z <;> simp_all [posLt]
  omega

lemma posLt_flip {x y : Option Nat} (h : posLt x y = false) :
    posLt y x = true ∨ x = y := by
  cases x <;> cases y <;> simp_all [posLt]
  omega

lemma matchInfoLt_iff (a b : MatchInfo) : MatchInfo.lt a b = true ↔
    (posLt a.pos b.pos = true ∨
      (a.pos = b.pos ∧ a.notMatchingCharCount < b.notMatchingCharCount)) := by
  unfold MatchInfo.lt
  by_cases hp : a.pos = b.pos
  · rw [if_neg (by simpa using hp)]
    rw [hp, posLt_irrefl]
    simp
  · rw [if_pos hp]
    simp [hp]

lemma matchInfoLt_irrefl (a : MatchInfo) : MatchInfo.lt a a = false := by
  rw [Bool.eq_false_iff]
  intro h
  rcases (matchInfoLt_iff a a).mp h with h | ⟨_, h⟩
  · rw [posLt_irrefl] at h
    cases h
  · omega

lemma matchInfoLt_asymm {a b : MatchInfo} (h : MatchInfo.lt a b = true) :
    MatchInfo.lt b a = false := by
  rw [Bool.eq_false_iff]
  intro h2
  rcases (matchInfoLt_iff a b).mp h with h | ⟨hp, hd⟩ <;>
    rcases (matchInfoLt_iff b a).mp h2 with h2 | ⟨hp2, hd2⟩
  · rw [posLt_asymm h] at h2
    cases h2
  · rw [hp2, posLt_irrefl] at h
    cases h
  · rw [hp, posLt_irrefl] at h2
    cases h2
  · omega

lemma matchInfoLt_trans {a b c : MatchInfo} (h1 : MatchInfo.lt a b = true)
    (h2 : MatchInfo.lt b c = true) : MatchInfo.lt a c = true := by
  rw [matchInfoLt_iff]
  rcases (matchInfoLt_iff a b).mp h1 with h1 | ⟨hp1, hd1⟩ <;>
    rcases (matchInfoLt_iff b c).mp h2 with h2 | ⟨hp2, hd2⟩
  · exact Or.inl (posLt_trans h1 h2)
  · rw [hp2] at h1
    exact Or.inl h1
  · rw [hp1]
    exact Or.inl h2
  · exact Or.inr ⟨hp1.trans hp2, by omega⟩

lemma matchInfoLt_of_lt_of_not_lt {a b c : MatchInfo} (h1 : MatchInfo.lt a b = true)
    (h2 : MatchInfo.lt c b = false) : MatchInfo.lt a c = true := by
  rw [matchInfoLt_iff]
  have h2' := (matchInfoLt_iff c b).not.mp (by simp [h2])
  push_neg at h2'
  obtain ⟨h2p, h2d⟩ := h2'
  have h2p' : posLt c.pos b.pos = false := by
    simpa using h2p
  rcases posLt_flip h2p' with hbc | hcb
  · rcases (matchInfoLt_iff a b).mp h1 with h1 | ⟨hp1, _⟩
    · exact Or.inl (posLt_trans h1 hbc)
    · rw [hp1]
      exact Or.inl hbc
  · have hdb : b.notMatchingCharCount ≤ c.notMatchingCharCount := by
      have := h2d hcb
      omega
    rcases (matchInfoLt_iff a b).mp h1 with h1 | ⟨hp1, hd1⟩
    · rw [hcb]
      exact Or.inl h1
    · exact Or.inr ⟨hp1.trans hcb.symm, by omega⟩

lemma foldl_chooseBetter_spec (d : MatchInfo) (xs : List MatchInfo) :
    ∀ (x : MatchInfo), ∃ i, i < (x :: xs).length ∧
      xs.foldl chooseBetter x = (x :: xs).getD i d ∧
      (∀ j, j < (x :: xs).length →
        MatchInfo.lt ((x :: xs).getD j d) (xs.foldl chooseBetter x) = false) ∧
      (∀ j, j < i → MatchInfo.lt (xs.foldl chooseBetter x) ((x :: xs).getD j d) = true) := by
  induction xs with
  | nil =>
    intro x
    refine ⟨0, by simp, by simp, ?_, fun j hj => absurd hj (by omega)⟩
    intro j hj
    have hj0 : j = 0 := by simpa using hj
    subst hj0
    simpa using matchInfoLt_irrefl x
  | cons y ys ih =>
    intro x
    by_cases hlt : MatchInfo.lt y x = true
    · have hfold : (y :: ys).foldl chooseBetter x = ys.foldl chooseBetter y := by
        rw [List.foldl_cons]
        unfold chooseBetter
        rw [if_pos hlt]
      obtain ⟨i0, hi0, heq, hmin, hbef⟩ := ih y
      have hrx : MatchInfo.lt (ys.foldl chooseBetter y) x = true := by
        cases i0 with
        | zero =>
          rw [heq]
          simpa using hlt
        | succ k =>
          have hry : MatchInfo.lt (ys.foldl chooseBetter y) y = true := by
            have := hbef 0 (Nat.succ_pos k)
            simpa using this
          exact matchInfoLt_trans hry hlt
      refine ⟨i0 + 1, by simpa using Nat.succ_lt_succ hi0, ?_, ?_, ?_⟩
      · rw [hfold, heq]
        simp
      · intro j hj
        rw [hfold]
        cases j with
        | zero =>
          simpa using matchInfoLt_asymm hrx
        | succ k =>
          have := hmin k (by simpa using hj)
          simpa using this
      · intro j hj
        rw [hfold]
        cases j with
        | zero => simpa using hrx
        | succ k =>
          have := hbef k (by omega)
          simpa using this
    · have hfold : (y :: ys).foldl chooseBetter x = ys.foldl chooseBetter x := by
        rw [List.foldl_cons]
        unfold chooseBetter
        rw [if_neg (by simpa using hlt)]
      obtain ⟨i0, hi0, heq, hmin, hbef⟩ := ih x
      have hxmin : MatchInfo.lt x (ys.foldl chooseBetter x) = false := by
        have := hmin 0 (by simp)
        simpa using this
      have hymin : MatchInfo.lt y (ys.foldl chooseBetter x) = false := by
        by_contra hc
        have hc' : MatchInfo.lt y (ys.foldl chooseBetter x) = true := by
          simpa using hc
        have : MatchInfo.lt y x = true := matchInfoLt_of_lt_of_not_lt hc' hxmin
        exact hlt this
      cases i0 with
      | zero =>
        have hrx : ys.foldl chooseBetter x = x := by
          rw [heq]
          simp
        refine ⟨0, by simp, by rw [hfold, hrx]; simp, ?_, fun j hj => absurd hj (by omega)⟩
        intro j hj
        rw [hfold]
        cases j with
        | zero =>
          rw [hrx]
          simpa using matchInfoLt_irrefl x
        | succ k =>
          cases k with
          | zero => simpa using hymin
          | succ m =>
            have := hmin (m + 1) (by simpa using Nat.lt_of_succ_lt_succ hj)
            simpa using this
      | succ k0 =>
        have hrx : MatchInfo.lt (ys.foldl chooseBetter x) x = true := by
          have := hbef 0 (Nat.succ_pos k0)
          simpa using this
        have hry : MatchInfo.lt (ys.foldl chooseBetter x) y = true :=
          matchInfoLt_of_lt_of_not_lt hrx (by simpa using hlt)
        refine ⟨k0 + 2, by simpa using Nat.succ_lt_succ (Nat.succ_lt_succ (by simpa using hi0)), ?_, ?_, ?_⟩
        · rw [hfold, heq]
          simp
        · intro j hj
          rw [hfold]
          cases j with
          | zero => simpa using matchInfoLt_asymm hrx
          | succ k =>
            cases k with
            | zero => simpa using hymin
            | succ m =>
              have := hmin (m + 1) (by simpa using Nat.lt_of_succ_lt_succ hj)
              simpa using this
        · intro j hj
          rw [hfold]
          cases j with
          | zero => simpa using hrx
          | succ k =>
            cases k with
            | zero => simpa using hry
            | succ m =>
              have := hbef (m + 1) (by omega)
              simpa using this

lemma matchInfoLt_of_sameKey {a b : MatchInfo} (h : sameKey a b) :
    MatchInfo.lt a b = false := by
  rw [Bool.eq_false_iff]
  intro hc
  rcases (matchInfoLt_iff a b).mp hc with hc | ⟨_, hc⟩
  · rw [h.1, posLt_irrefl] at hc
    cases hc
  · rw [h.2] at hc
    omega

lemma isPrefixOf_refl (l : Str) : l.isPrefixOf l = true :=
  List.isPrefixOf_iff_prefix.mpr (List.prefix_refl l)

lemma strFind_self (h : Str) : strFind h h = some 0 := by
  cases h with
  | nil => rfl
  | cons c t =>
    unfold strFind
    rw [if_pos (isPrefixOf_refl (c :: t))]

lemma strFind_eq_some_zero_iff (h n : Str) :
    strFind h n = some 0 ↔ n.isPrefixOf h = true := by
  cases h with
  | nil =>
    cases n with
    | nil => simp [strFind, List.isPrefixOf]
    | cons c t => simp [strFind, List.isPrefixOf]
  | cons c t =>
    unfold strFind
    by_cases hp : n.isPrefixOf (c :: t) = true
    · simp [hp]
    · rw [if_neg hp]
      constructor
      · intro hmap
        rcases Option.map_eq_some'.mp hmap with ⟨q, _, hq⟩
        omega
      · intro hc
        exact absurd hc hp

lemma strFind_drop_of_some (h n : Str) :
    ∀ (p : Nat), strFind h n = some p → n.isPrefixOf (h.drop p) = true := by
  induction h with
  | nil =>
    intro p hp
    unfold strFind at hp
    by_cases hn : n = []
    · rw [if_pos hn] at hp
      subst hn
      simp [List.isPrefixOf]
    · rw [if_neg hn] at hp
      cases hp
  | cons c t ih =>
    intro p hp
    unfold strFind at hp
    by_cases hpre : n.isPrefixOf (c :: t) = true
    · rw [if_pos hpre] at hp
      obtain rfl : (0 : Nat) = p := Option.some.inj hp
      simpa using hpre
    · rw [if_neg hpre] at hp
      rcases Option.map_eq_some'.mp hp with ⟨q, hq, hq1⟩
      subst hq1
      simpa using ih q hq

lemma strFind_none_iff (h n : Str) (hn : n ≠ []) :
    strFind h n = none ↔ ∀ i, n.isPrefixOf (h.drop i) = false := by
  induction h with
  | nil =>
    unfold strFind
    rw [if_neg hn]
    constructor
    · intro _ i
      rw [List.drop_nil]
      cases n with
      | nil => exact absurd rfl hn
      | cons c t => rfl
    · intro _
      rfl
  | cons c t ih =>
    unfold strFind
    by_cases hpre : n.isPrefixOf (c :: t) = true
    · rw [if_pos hpre]
      constructor
      · intro hc
        cases hc
      · intro hc
        exact absurd (hc 0) (by simpa using hpre)
    · rw [if_neg hpre]
      constructor
      · intro hmap i
        have hnone : strFind t n = none := by
          cases hfind : strFind t n with
          | none => rfl
          | some q =>
            rw [hfind] at hmap
            simp at hmap
        cases i with
        | zero => simpa using Bool.eq_false_iff.mpr hpre
        | succ j =>
          have := ih.mp hnone j
          simpa using this
      · intro hall
        have hnone : strFind t n = none := by
          rw [ih]
          intro j
          have := hall (j + 1)
          simpa using this
        rw [hnone]
        rfl

lemma isPrefixOf_drop {a b : Str} :
    ∀ (k : Nat), a.isPrefixOf b = true → (a.drop k).isPrefixOf (b.drop k) = true := by
  intro k h
  refine List.isPrefixOf_iff_prefix.mpr ?_
  obtain ⟨s, hs⟩ := List.isPrefixOf_iff_prefix.mp h
  by_cases hk : k ≤ a.length
  · refine ⟨s, ?_⟩
    rw [← hs, List.drop_append_of_le_length hk]
  · have ha : a.drop k = [] := List.drop_eq_nil_of_le (by omega)
    rw [ha]
    exact List.nil_prefix

lemma isPrefixOf_trans {a b c : Str} (h1 : a.isPrefixOf b = true)
    (h2 : b.isPrefixOf c = true) : a.isPrefixOf c = true :=
  List.isPrefixOf_iff_prefix.mpr
    ((List.isPrefixOf_iff_prefix.mp h1).trans (List.isPrefixOf_iff_prefix.mp h2))

lemma strFind_some_of_inside {cl M t : Str} (ht : t ≠ []) (q p : Nat)
    (hM : M.isPrefixOf (cl.drop q) = true) (ht2 : t.isPrefixOf (M.drop p) = true) :
    strFind cl t ≠ none := by
  intro hnone
  have hall := (strFind_none_iff cl t ht).mp hnone
  have hMd : (M.drop p).isPrefixOf ((cl.drop q).drop p) = true := isPrefixOf_drop p hM
  have htcl := isPrefixOf_trans ht2 hMd
  rw [List.drop_drop] at htcl
  rw [hall] at htcl
  cases htcl

lemma commonStartLength_le_left : ∀ (a b : Str), commonStartLength a b ≤ a.length := by
  intro a
  induction a with
  | nil => intro b; simp [commonStartLength]
  | cons x xs ih =>
    intro b
    cases b with
    | nil => simp [commonStartLength]
    | cons y ys =>
      unfold commonStartLength
      split_ifs with h
      · simpa using ih ys
      · simp

lemma commonStartLength_le_right : ∀ (a b : Str), commonStartLength a b ≤ b.length := by
  intro a
  induction a with
  | nil => intro b; simp [commonStartLength]
  | cons x xs ih =>
    intro b
    cases b with
    | nil => simp [commonStartLength]
    | cons y ys =>
      unfold commonStartLength
      split_ifs with h
      · simpa using ih ys
      · simp

lemma commonStartLength_self (a : Str) : commonStartLength a a = a.length := by
  induction a with
  | nil => rfl
  | cons x xs ih =>
    unfold commonStartLength
    rw [if_pos rfl, ih]
    rfl

lemma commonStartLength_full_eq : ∀ (a b : Str),
    commonStartLength a b = a.length → a.length = b.length → a = b := by
  intro a
  induction a with
  | nil =>
    intro b _ hlen
    cases b with
    | nil => rfl
    | cons y ys => simp at hlen
  | cons x xs ih =>
    intro b hc hlen
    cases b with
    | nil => simp at hlen
    | cons y ys =>
      unfold commonStartLength at hc
      by_cases h : x = y
      · rw [if_pos h] at hc
        subst h
        simp only [List.length_cons] at hc hlen
        have hxs : xs = ys := ih ys (by omega) (by omega)
        rw [hxs]
      · rw [if_neg h] at hc
        simp only [List.length_cons] at hc
        omega

lemma lowerStr_length (s : Str) : (lowerStr s).length = s.length := by
  simp [lowerStr]

lemma getD_map_of_lt {α β : Type} (f : α → β) (l : List α) (j : Nat) (d : β) (e : α)
    (hj : j < l.length) : (l.map f).getD j d = f (l.getD j e) := by
  induction l generalizing j with
  | nil => simp at hj
  | cons x xs ih =>
    cases j with
    | zero => simp
    | succ k =>
      simp only [List.map_cons, List.getD_cons_succ]
      exact ih k (by simpa using hj)

lemma foldl_min_le_start {α : Type} (f : α → Nat) :
    ∀ (l : List α) (acc : Nat), l.foldl (fun m mi => min (f mi) m) acc ≤ acc := by
  intro l
  induction l with
  | nil => intro acc; exact Nat.le_refl acc
  | cons y ys ih =>
    intro acc
    exact le_trans (ih _) (min_le_right _ _)

lemma foldl_min_le_each {α : Type} (f : α → Nat) :
    ∀ (l : List α) (acc : Nat) (x : α), x ∈ l →
      l.foldl (fun m mi => min (f mi) m) acc ≤ f x := by
  intro l
  induction l with
  | nil => intro acc x hx; simp at hx
  | cons y ys ih =>
    intro acc x hx
    rcases List.mem_cons.mp hx with rfl | hx
    · exact le_trans (foldl_min_le_start f ys _) (min_le_left _ _)
    · exact ih _ x hx

lemma foldl_min_ge_all {α : Type} (f : α → Nat) (n : Nat) :
    ∀ (l : List α) (acc : Nat), (∀ x ∈ l, n ≤ f x) → n ≤ acc →
      n ≤ l.foldl (fun m mi => min (f mi) m) acc := by
  intro l
  induction l with
  | nil => intro acc _ hacc; exact hacc
  | cons y ys ih =>
    intro acc hall hacc
    refine ih _ (fun x hx => hall x (List.mem_cons_of_mem y hx)) ?_
    exact le_min (hall y (List.mem_cons_self y ys)) hacc

lemma foldl_max_ge_start {α : Type} (f : α → Nat) :
    ∀ (l : List α) (acc : Nat), acc ≤ l.foldl (fun m mi => max (f mi) m) acc := by
  intro l
  induction l with
  | nil => intro acc; exact Nat.le_refl acc
  | cons y ys ih =>
    intro acc
    exact le_trans (le_max_right _ _) (ih _)

lemma foldl_max_ge_each {α : Type} (f : α → Nat) :
    ∀ (l : List α) (acc : Nat) (x : α), x ∈ l →
      f x ≤ l.foldl (fun m mi => max (f mi) m) acc := by
  intro l
  induction l with
  | nil => intro acc x hx; simp at hx
  | cons y ys ih =>
    intro acc x hx
    rcases List.mem_cons.mp hx with rfl | hx
    · exact le_trans (le_max_left _ _) (foldl_max_ge_start f ys _)
    · exact ih _ x hx

lemma foldl_max_le_all {α : Type} (f : α → Nat) (n : Nat) :
    ∀ (l : List α) (acc : Nat), (∀ x ∈ l, f x ≤ n) → acc ≤ n →
      l.foldl (fun m mi => max (f mi) m) acc ≤ n := by
  intro l
  induction l with
  | nil => intro acc _ hacc; exact hacc
  | cons y ys ih =>
    intro acc hall hacc
    refine ih _ (fun x hx => hall x (List.mem_cons_of_mem y hx)) ?_
    exact max_le (hall y (List.mem_cons_self y ys)) hacc

lemma groupBest_eq_none_iff (t : Str) (cid gid : Nat) (g : List Str) :
    groupBest t cid gid g = none ↔ g = [] := by
  cases g with
  | nil => simp [groupBest]
  | cons a as => simp [groupBest]

lemma groupBest_cons_eq (t : Str) (cid gid : Nat) (a0 : Str) (as : List Str) :
    groupBest t cid gid (a0 :: as) =
      some ((as.map (mkInfo t cid gid)).foldl chooseBetter (mkInfo t cid gid a0)) := by
  simp [groupBest]

lemma groupBest_spec (t : Str) (cid gid : Nat) (a0 : Str) (as : List Str) :
    ∃ i, i < (a0 :: as).length ∧
      groupBest t cid gid (a0 :: as) = some (mkInfo t cid gid ((a0 :: as).getD i [])) ∧
      (∀ j, j < (a0 :: as).length →
        MatchInfo.lt (mkInfo t cid gid ((a0 :: as).getD j []))
          (mkInfo t cid gid ((a0 :: as).getD i [])) = false) ∧
      (∀ j, j < i → MatchInfo.lt (mkInfo t cid gid ((a0 :: as).getD i []))
        (mkInfo t cid gid ((a0 :: as).getD j [])) = true) := by
  obtain ⟨i, hi, heq, hmin, hbef⟩ :=
    foldl_chooseBetter_spec (mkInfo t cid gid []) (as.map (mkInfo t cid gid))
      (mkInfo t cid gid a0)
  have hlist : mkInfo t cid gid a0 :: as.map (mkInfo t cid gid) =
      (a0 :: as).map (mkInfo t cid gid) := by simp
  rw [hlist] at hi heq hmin hbef
  have hlen : ((a0 :: as).map (mkInfo t cid gid)).length = (a0 :: as).length := by simp
  rw [hlen] at hi
  have hconv : ∀ j, j < (a0 :: as).length →
      ((a0 :: as).map (mkInfo t cid gid)).getD j (mkInfo t cid gid []) =
        mkInfo t cid gid ((a0 :: as).getD j []) := by
    intro j hj
    exact getD_map_of_lt (mkInfo t cid gid) (a0 :: as) j _ [] hj
  refine ⟨i, hi, ?_, ?_, ?_⟩
  · rw [groupBest_cons_eq, heq, hconv i hi]
  · intro j hj
    have h1 := hmin j (by simpa using hj)
    rw [heq, hconv i hi, hconv j hj] at h1
    exact h1
  · intro j hj
    have h1 := hbef j hj
    rw [heq, hconv i hi, hconv j (by omega)] at h1
    exact h1

lemma groupBest_mk (t : Str) (cid gid : Nat) (g : List Str) (b : MatchInfo)
    (h : groupBest t cid gid g = some b) : ∃ a, a ∈ g ∧ b = mkInfo t cid gid a := by
  cases g with
  | nil => cases h
  | cons a0 as =>
    obtain ⟨i, hi, heq, _, _⟩ := groupBest_spec t cid gid a0 as
    rw [h] at heq
    refine ⟨(a0 :: as).getD i [], ?_, Option.some.inj heq⟩
    rw [List.getD_eq_getElem (a0 :: as) [] hi]
    exact List.getElem_mem hi

lemma groupBest_pos_zero (t : Str) (cid gid : Nat) (g : List Str) (b : MatchInfo)
    (h : groupBest t cid gid g = some b) (a : Str) (ha : a ∈ g)
    (h0 : strFind (lowerStr a) t = some 0) : b.pos = some 0 := by
  cases g with
  | nil => cases h
  | cons a0 as =>
    obtain ⟨i, hi, heq, hmin, _⟩ := groupBest_spec t cid gid a0 as
    rw [h] at heq
    obtain rfl := Option.some.inj heq
    obtain ⟨j, hj, hja⟩ := List.mem_iff_getElem.mp ha
    have hgd : (a0 :: as).getD j [] = a := by
      rw [List.getD_eq_getElem (a0 :: as) [] hj, hja]
    have hminj := hmin j hj
    by_contra hne
    have hlt : MatchInfo.lt (mkInfo t cid gid ((a0 :: as).getD j []))
        (mkInfo t cid gid ((a0 :: as).getD i [])) = true := by
      rw [matchInfoLt_iff]
      left
      have hposj : (mkInfo t cid gid ((a0 :: as).getD j [])).pos = some 0 := by
        rw [hgd]
        exact h0
      rw [hposj]
      cases hpos : (mkInfo t cid gid ((a0 :: as).getD i [])).pos with
      | none => rfl
      | some k =>
        have : k ≠ 0 := by
          intro hk
          exact hne (by rw [hpos, hk])
        simp [posLt]
        omega
    rw [hminj] at hlt
    cases hlt

lemma groupBest_pos_none_all (t : Str) (cid gid : Nat) (g : List Str) (b : MatchInfo)
    (h : groupBest t cid gid g = some b) (hpos : b.pos = none) :
    ∀ a ∈ g, strFind (lowerStr a) t = none := by
  intro a ha
  cases hfind : strFind (lowerStr a) t with
  | none => rfl
  | some p =>
    exfalso
    cases g with
    | nil => cases h
    | cons a0 as =>
      obtain ⟨i, hi, heq, hmin, _⟩ := groupBest_spec t cid gid a0 as
      rw [h] at heq
      obtain rfl := Option.some.inj heq
      obtain ⟨j, hj, hja⟩ := List.mem_iff_getElem.mp ha
      have hgd : (a0 :: as).getD j [] = a := by
        rw [List.getD_eq_getElem (a0 :: as) [] hj, hja]
      have hminj := hmin j hj
      have hlt : MatchInfo.lt (mkInfo t cid gid ((a0 :: as).getD j []))
          (mkInfo t cid gid ((a0 :: as).getD i [])) = true := by
        rw [matchInfoLt_iff]
        left
        have hposj : (mkInfo t cid gid ((a0 :: as).getD j [])).pos = some p := by
          rw [hgd]
          exact hfind
        rw [hposj, hpos]
        rfl
      rw [hminj] at hlt
      cases hlt

lemma mkInfo_of_lower_eq (M : Str) (cid gid : Nat) (a : Str) (hM : lowerStr a = M) :
    mkInfo M cid gid a =
      { pos := some 0, notMatchingCharCount := 0, commandID := cid, groupID := gid,
        candidate := a, candidateLowered := M } := by
  unfold mkInfo
  simp only [hM, strFind_self, Nat.sub_self]

/-- Stability of a group's best match: when the best match for the typed
token has lowered candidate `M`, re-running the search with `M` itself as the
token selects the same alias, now as an exact match at position 0. -/
lemma groupBest_exact_stable (t M : Str) (cid gid : Nat) (g : List Str) (b : MatchInfo)
    (h : groupBest t cid gid g = some b) (hcl : b.candidateLowered = M) :
    groupBest M cid gid g =
      some { pos := some 0, notMatchingCharCount := 0, commandID := cid, groupID := gid,
             candidate := b.candidate, candidateLowered := M } := by
  cases g with
  | nil => cases h
  | cons a0 as =>
    obtain ⟨i, hi, heqt, hmint, hbeft⟩ := groupBest_spec t cid gid a0 as
    rw [h] at heqt
    obtain rfl := Option.some.inj heqt
    have hMi : lowerStr ((a0 :: as).getD i []) = M := hcl
    obtain ⟨i2, hi2, heqM, hminM, hbefM⟩ := groupBest_spec M cid gid a0 as
    have hx : mkInfo M cid gid ((a0 :: as).getD i []) =
        { pos := some 0, notMatchingCharCount := 0, commandID := cid, groupID := gid,
          candidate := (a0 :: as).getD i [], candidateLowered := M } :=
      mkInfo_of_lower_eq M cid gid _ hMi
    have hminMi := hminM i hi
    have hpos2 : (mkInfo M cid gid ((a0 :: as).getD i2 [])).pos = some 0 := by
      by_contra hne
      have hlt : MatchInfo.lt (mkInfo M cid gid ((a0 :: as).getD i []))
          (mkInfo M cid gid ((a0 :: as).getD i2 [])) = true := by
        rw [matchInfoLt_iff]
        left
        rw [hx]
        cases hp2 : (mkInfo M cid gid ((a0 :: as).getD i2 [])).pos with
        | none => rfl
        | some k =>
          have hk : k ≠ 0 := by
            intro h0
            exact hne (by rw [hp2, h0])
          simp [posLt]
          omega
      rw [hminMi] at hlt
      cases hlt
    have hd2 : (mkInfo M cid gid ((a0 :: as).getD i2 [])).notMatchingCharCount = 0 := by
      by_contra hne
      have hlt : MatchInfo.lt (mkInfo M cid gid ((a0 :: as).getD i []))
          (mkInfo M cid gid ((a0 :: as).getD i2 [])) = true := by
        rw [matchInfoLt_iff]
        right
        constructor
        · rw [hx, hpos2]
        · rw [hx]
          show (0 : Nat) < _
          omega
      rw [hminMi] at hlt
      cases hlt
    have hM2 : lowerStr ((a0 :: as).getD i2 []) = M := by
      have hfind : strFind (lowerStr ((a0 :: as).getD i2 [])) M = some 0 := hpos2
      have hpre : M.isPrefixOf (lowerStr ((a0 :: as).getD i2 [])) = true :=
        (strFind_eq_some_zero_iff _ _).mp hfind
      have hlen1 : M.length ≤ (lowerStr ((a0 :: as).getD i2 [])).length :=
        (List.isPrefixOf_iff_prefix.mp hpre).length_le
      have hlen2 : (lowerStr ((a0 :: as).getD i2 [])).length - M.length = 0 := hd2
      have hlen : M.length = (lowerStr ((a0 :: as).getD i2 [])).length := by omega
      exact ((List.isPrefixOf_iff_prefix.mp hpre).eq_of_length hlen).symm
    have hsame_t : sameKey (mkInfo t cid gid ((a0 :: as).getD i2 []))
        (mkInfo t cid gid ((a0 :: as).getD i [])) := by
      constructor
      · show strFind (lowerStr _) t = strFind (lowerStr _) t
        rw [hM2, hMi]
      · show (lowerStr _).length - t.length = (lowerStr _).length - t.length
        rw [hM2, hMi]
    have hii : i2 = i := by
      rcases Nat.lt_trichotomy i2 i with hlt | heq | hgt
      · have hb := hbeft i2 hlt
        have := matchInfoLt_of_sameKey
          (⟨hsame_t.1.symm, hsame_t.2.symm⟩ : sameKey _ _)
        rw [this] at hb
        cases hb
      · exact heq
      · have hb := hbefM i hgt
        have hsame_M : sameKey (mkInfo M cid gid ((a0 :: as).getD i2 []))
            (mkInfo M cid gid ((a0 :: as).getD i [])) := by
          constructor
          · rw [hpos2, hx]
          · rw [hd2, hx]
        have := matchInfoLt_of_sameKey hsame_M
        rw [this] at hb
        cases hb
    rw [heqM, hii, hx]
    rfl

/-- Stability of a no-match group: when no alias of the group contains the
typed token, no alias contains any string `M` the token occurs in, so the
group's best match still has position `npos`. -/
lemma groupBest_none_stable (t M : Str) (cid gid : Nat) (g : List Str) (b : MatchInfo)
    (ht : t ≠ []) (p0 : Nat) (hocc : strFind M t = some p0)
    (h : groupBest t cid gid g = some b) (hpos : b.pos = none) :
    ∃ b2, groupBest M cid gid g = some b2 ∧ b2.pos = none := by
  have hall := groupBest_pos_none_all t cid gid g b h hpos
  cases g with
  | nil => cases h
  | cons a0 as =>
    obtain ⟨i2, hi2, heqM, _, _⟩ := groupBest_spec M cid gid a0 as
    refine ⟨mkInfo M cid gid ((a0 :: as).getD i2 []), heqM, ?_⟩
    show strFind (lowerStr ((a0 :: as).getD i2 [])) M = none
    cases hfind : strFind (lowerStr ((a0 :: as).getD i2 [])) M with
    | none => rfl
    | some q =>
      exfalso
      have hmem : (a0 :: as).getD i2 [] ∈ a0 :: as := by
        rw [List.getD_eq_getElem (a0 :: as) [] hi2]
        exact List.getElem_mem hi2
      have hnone := hall _ hmem
      have hMd : M.isPrefixOf ((lowerStr ((a0 :: as).getD i2 [])).drop q) = true :=
        strFind_drop_of_some _ _ q hfind
      have htd : t.isPrefixOf (M.drop p0) = true := strFind_drop_of_some _ _ p0 hocc
      exact strFind_some_of_inside ht q p0 hMd htd hnone

/-- Stability of a substring-only group in the prefix case: when the typed
token is a prefix of `M` but the group's best match does not start with the
token, the group's best match for `M` does not start with `M` either. -/
lemma groupBest_nonzero_stable (t M : Str) (cid gid : Nat) (g : List Str) (b : MatchInfo)
    (htM : t.isPrefixOf M = true) (h : groupBest t cid gid g = some b)
    (hpos : b.pos ≠ some 0) :
    ∃ b2, groupBest M cid gid g = some b2 ∧ b2.pos ≠ some 0 := by
  cases g with
  | nil => cases h
  | cons a0 as =>
    obtain ⟨i2, hi2, heqM, _, _⟩ := groupBest_spec M cid gid a0 as
    refine ⟨mkInfo M cid gid ((a0 :: as).getD i2 []), heqM, ?_⟩
    intro h0
    have hfind : strFind (lowerStr ((a0 :: as).getD i2 [])) M = some 0 := h0
    have hpreM : M.isPrefixOf (lowerStr ((a0 :: as).getD i2 [])) = true :=
      (strFind_eq_some_zero_iff _ _).mp hfind
    have hpret : t.isPrefixOf (lowerStr ((a0 :: as).getD i2 [])) = true :=
      isPrefixOf_trans htM hpreM
    have hmem : (a0 :: as).getD i2 [] ∈ a0 :: as := by
      rw [List.getD_eq_getElem (a0 :: as) [] hi2]
      exact List.getElem_mem hi2
    have := groupBest_pos_zero t cid gid (a0 :: as) b h _ hmem
      ((strFind_eq_some_zero_iff _ _).mpr hpret)
    exact hpos this

lemma classify_fold_decompose (tok : Str) (cid : Nat) :
    ∀ (gl : List (Nat × List Str)) (sw im : List MatchInfo),
      gl.foldl (classifyStep tok cid) (sw, im) =
        (sw ++ swOfGroups tok cid gl, im ++ imOfGroups tok cid gl) := by
  intro gl
  induction gl with
  | nil => intro sw im; simp [swOfGroups, imOfGroups]
  | cons q rest ih =>
    intro sw im
    rw [List.foldl_cons]
    cases hb : groupBest tok cid q.1 q.2 with
    | none =>
      have hstep : classifyStep tok cid (sw, im) q = (sw, im) := by
        simp only [classifyStep, hb]
      have hsw : swOfGroups tok cid (q :: rest) = swOfGroups tok cid rest := by
        simp only [swOfGroups, List.filterMap_cons, hb]
      have him : imOfGroups tok cid (q :: rest) = imOfGroups tok cid rest := by
        simp only [imOfGroups, List.filterMap_cons, hb]
      rw [hstep, ih, hsw, him]
    | some b =>
      have hstep : classifyStep tok cid (sw, im) q =
          (if b.pos = some 0 then (sw ++ [b], im)
            else if b.pos ≠ none then (sw, im ++ [b]) else (sw, im)) := by
        simp only [classifyStep, hb]
      by_cases h0 : b.pos = some 0
      · have hsw : swOfGroups tok cid (q :: rest) = b :: swOfGroups tok cid rest := by
          simp only [swOfGroups, List.filterMap_cons, hb, if_pos h0]
        have him : imOfGroups tok cid (q :: rest) = imOfGroups tok cid rest := by
          simp only [imOfGroups, List.filterMap_cons, hb, if_pos h0]
        rw [hstep, if_pos h0, ih, hsw, him]
        simp
      · by_cases hn : b.pos ≠ none
        · have hsw : swOfGroups tok cid (q :: rest) = swOfGroups tok cid rest := by
            simp only [swOfGroups, List.filterMap_cons, hb, if_neg h0]
          have him : imOfGroups tok cid (q :: rest) = b :: imOfGroups tok cid rest := by
            simp only [imOfGroups, List.filterMap_cons, hb, if_neg h0, if_pos hn]
          rw [hstep, if_neg h0, if_pos hn, ih, hsw, him]
          simp
        · have hsw : swOfGroups tok cid (q :: rest) = swOfGroups tok cid rest := by
            simp only [swOfGroups, List.filterMap_cons, hb, if_neg h0]
          have him : imOfGroups tok cid (q :: rest) = imOfGroups tok cid rest := by
            simp only [imOfGroups, List.filterMap_cons, hb, if_neg h0, if_neg hn]
          rw [hstep, if_neg h0, if_neg hn, ih, hsw, him]

lemma scan_fold_decompose (lim : Bool) (tid : Nat) (tok : Str) :
    ∀ (le : List (Nat × ConsoleCommand)) (a : List Bool) (sw im : List MatchInfo),
      le.foldl (scanStep lim tid tok) (a, sw, im) =
        (aliveAfter lim tid le a, sw ++ swOfCmds lim tid tok le a,
          im ++ imOfCmds lim tid tok le a) := by
  intro le
  induction le with
  | nil => intro a sw im; simp [aliveAfter, swOfCmds, imOfCmds]
  | cons p rest ih =>
    intro a sw im
    rw [List.foldl_cons]
    by_cases hc : a.getD p.1 false = true ∧ tid < cmdEndOf lim p.2
    · have hc' : a.getD p.1 false = true ∧
          tid < (if lim then p.2.numFixTokens else p.2.generators.length) := by
        simpa [cmdEndOf] using hc
      have hB := classify_fold_decompose tok p.1 ((p.2.generators.getD tid []).enum) sw im
      have hstep : scanStep lim tid tok (a, sw, im) p =
          (a.set p.1 false, sw ++ swOfGroups tok p.1 ((p.2.generators.getD tid []).enum),
            im ++ imOfGroups tok p.1 ((p.2.generators.getD tid []).enum)) := by
        simp only [scanStep]
        rw [if_pos hc', hB]
      rw [hstep, ih]
      simp only [aliveAfter, swOfCmds, imOfCmds]
      rw [if_pos hc, if_pos hc, if_pos hc]
      simp [List.append_assoc]
    · have hc' : ¬ (a.getD p.1 false = true ∧
          tid < (if lim then p.2.numFixTokens else p.2.generators.length)) := by
        simpa [cmdEndOf] using hc
      have hstep : scanStep lim tid tok (a, sw, im) p = (a, sw, im) := by
        simp only [scanStep]
        rw [if_neg hc']
      rw [hstep, ih]
      simp only [aliveAfter, swOfCmds, imOfCmds]
      rw [if_neg hc, if_neg hc, if_neg hc]

lemma scanToken_decompose (cmds : List ConsoleCommand) (lim : Bool) (tid : Nat)
    (tok : Str) (alive : List Bool) :
    scanToken cmds lim tid tok alive =
      (aliveAfter lim tid cmds.enum alive, swOfCmds lim tid tok cmds.enum alive,
        imOfCmds lim tid tok cmds.enum alive) := by
  unfold scanToken
  rw [scan_fold_decompose]
  simp

lemma swOfGroups_mem (tok : Str) (cid : Nat) (gl : List (Nat × List Str))
    (mi : MatchInfo) (h : mi ∈ swOfGroups tok cid gl) :
    ∃ q ∈ gl, groupBest tok cid q.1 q.2 = some mi ∧ mi.pos = some 0 := by
  obtain ⟨q, hq, hf⟩ := List.mem_filterMap.mp h
  cases hb : groupBest tok cid q.1 q.2 with
  | none =>
    simp only [hb] at hf
    cases hf
  | some b =>
    simp only [hb] at hf
    by_cases h0 : b.pos = some 0
    · rw [if_pos h0] at hf
      obtain rfl := Option.some.inj hf
      exact ⟨q, hq, hb, h0⟩
    · rw [if_neg h0] at hf
      cases hf

lemma imOfGroups_mem (tok : Str) (cid : Nat) (gl : List (Nat × List Str))
    (mi : MatchInfo) (h : mi ∈ imOfGroups tok cid gl) :
    ∃ q ∈ gl, groupBest tok cid q.1 q.2 = some mi ∧ mi.pos ≠ some 0 ∧ mi.pos ≠ none := by
  obtain ⟨q, hq, hf⟩ := List.mem_filterMap.mp h
  cases hb : groupBest tok cid q.1 q.2 with
  | none =>
    simp only [hb] at hf
    cases hf
  | some b =>
    simp only [hb] at hf
    by_cases h0 : b.pos = some 0
    · rw [if_pos h0] at hf
      cases hf
    · rw [if_neg h0] at hf
      by_cases hn : b.pos ≠ none
      · rw [if_pos hn] at hf
        obtain rfl := Option.some.inj hf
        exact ⟨q, hq, hb, h0, hn⟩
      · rw [if_neg hn] at hf
        cases hf

lemma swOfCmds_mem (lim : Bool) (tid : Nat) (tok : Str) :
    ∀ (le : List (Nat × ConsoleCommand)) (a : List Bool) (mi : MatchInfo),
      mi ∈ swOfCmds lim tid tok le a →
      ∃ p ∈ le, ∃ q ∈ (p.2.generators.getD tid []).enum,
        groupBest tok p.1 q.1 q.2 = some mi ∧ mi.pos = some 0 := by
  intro le
  induction le with
  | nil => intro a mi h; cases h
  | cons p rest ih =>
    intro a mi h
    unfold swOfCmds at h
    split_ifs at h with hc
    · rcases List.mem_append.mp h with h | h
      · obtain ⟨q, hq, hgb, hpos⟩ := swOfGroups_mem tok p.1 _ mi h
        exact ⟨p, List.mem_cons_self p rest, q, hq, hgb, hpos⟩
      · obtain ⟨p2, hp2, q, hq, hgb, hpos⟩ := ih _ mi h
        exact ⟨p2, List.mem_cons_of_mem p hp2, q, hq, hgb, hpos⟩
    · obtain ⟨p2, hp2, q, hq, hgb, hpos⟩ := ih _ mi h
      exact ⟨p2, List.mem_cons_of_mem p hp2, q, hq, hgb, hpos⟩

lemma imOfCmds_mem (lim : Bool) (tid : Nat) (tok : Str) :
    ∀ (le : List (Nat × ConsoleCommand)) (a : List Bool) (mi : MatchInfo),
      mi ∈ imOfCmds lim tid tok le a →
      ∃ p ∈ le, ∃ q ∈ (p.2.generators.getD tid []).enum,
        groupBest tok p.1 q.1 q.2 = some mi ∧ mi.pos ≠ some 0 ∧ mi.pos ≠ none := by
  intro le
  induction le with
  | nil => intro a mi h; cases h
  | cons p rest ih =>
    intro a mi h
    unfold imOfCmds at h
    split_ifs at h with hc
    · rcases List.mem_append.mp h with h | h
      · obtain ⟨q, hq, hgb, hpos⟩ := imOfGroups_mem tok p.1 _ mi h
        exact ⟨p, List.mem_cons_self p rest, q, hq, hgb, hpos⟩
      · obtain ⟨p2, hp2, q, hq, hgb, hpos⟩ := ih _ mi h
        exact ⟨p2, List.mem_cons_of_mem p hp2, q, hq, hgb, hpos⟩
    · obtain ⟨p2, hp2, q, hq, hgb, hpos⟩ := ih _ mi h
      exact ⟨p2, List.mem_cons_of_mem p hp2, q, hq, hgb, hpos⟩

lemma swOfGroups_prefix_stable (t M : Str) (cid : Nat) (ht : t ≠ [])
    (htM : t.isPrefixOf M = true) :
    ∀ (gl : List (Nat × List Str)),
      (∀ mi ∈ swOfGroups t cid gl, mi.candidateLowered = M) →
      swOfGroups M cid gl = (swOfGroups t cid gl).map reMark := by
  intro gl
  induction gl with
  | nil => intro _; rfl
  | cons q rest ih =>
    intro hall
    cases hb : groupBest t cid q.1 q.2 with
    | none =>
      have hnil : q.2 = [] := (groupBest_eq_none_iff t cid q.1 q.2).mp hb
      have hbM : groupBest M cid q.1 q.2 = none := by
        rw [(groupBest_eq_none_iff M cid q.1 q.2)]
        exact hnil
      have h1 : swOfGroups M cid (q :: rest) = swOfGroups M cid rest := by
        simp only [swOfGroups, List.filterMap_cons, hbM]
      have h2 : swOfGroups t cid (q :: rest) = swOfGroups t cid rest := by
        simp only [swOfGroups, List.filterMap_cons, hb]
      rw [h1, h2]
      exact ih (fun mi hmi => hall mi (by rw [h2]; exact hmi))
    | some b =>
      by_cases h0 : b.pos = some 0
      · have h2 : swOfGroups t cid (q :: rest) = b :: swOfGroups t cid rest := by
          simp only [swOfGroups, List.filterMap_cons, hb, if_pos h0]
        have hcl : b.candidateLowered = M := by
          refine hall b ?_
          rw [h2]
          exact List.mem_cons_self _ _
        have hbM := groupBest_exact_stable t M cid q.1 q.2 b hb hcl
        obtain ⟨a, ha, hmk⟩ := groupBest_mk t cid q.1 q.2 b hb
        have hb_cid : b.commandID = cid := by rw [hmk]; rfl
        have hb_gid : b.groupID = q.1 := by rw [hmk]; rfl
        have hre : ({ pos := some 0, notMatchingCharCount := 0, commandID := cid,
                      groupID := q.1, candidate := b.candidate,
                      candidateLowered := M } : MatchInfo) = reMark b := by
          unfold reMark
          rw [← hb_cid, ← hb_gid, ← hcl]
        have h1 : swOfGroups M cid (q :: rest) = reMark b :: swOfGroups M cid rest := by
          simp only [swOfGroups, List.filterMap_cons, hbM, hre]
          rw [if_pos (show (reMark b).pos = some 0 from rfl)]
        rw [h1, h2, List.map_cons]
        have hall2 : ∀ mi ∈ swOfGroups t cid rest, mi.candidateLowered = M := by
          intro mi hmi
          refine hall mi ?_
          rw [h2]
          exact List.mem_cons_of_mem b hmi
        rw [ih hall2]
      · have h2 : swOfGroups t cid (q :: rest) = swOfGroups t cid rest := by
          simp only [swOfGroups, List.filterMap_cons, hb, if_neg h0]
        by_cases hn : b.pos = none
        · obtain ⟨b2, hbM, hb2⟩ := groupBest_none_stable t M cid q.1 q.2 b ht 0
            ((strFind_eq_some_zero_iff M t).mpr htM) hb hn
          have h1 : swOfGroups M cid (q :: rest) = swOfGroups M cid rest := by
            simp only [swOfGroups, List.filterMap_cons, hbM]
            rw [if_neg (by rw [hb2]; simp)]
          rw [h1, h2]
          exact ih (fun mi hmi => hall mi (by rw [h2]; exact hmi))
        · obtain ⟨b2, hbM, hb2⟩ := groupBest_nonzero_stable t M cid q.1 q.2 b htM hb h0
          have h1 : swOfGroups M cid (q :: rest) = swOfGroups M cid rest := by
            simp only [swOfGroups, List.filterMap_cons, hbM]
            rw [if_neg hb2]
          rw [h1, h2]
          exact ih (fun mi hmi => hall mi (by rw [h2]; exact hmi))

lemma swOfGroups_middle_stable (t M : Str) (cid : Nat) (ht : t ≠ []) (p0 : Nat)
    (hocc : strFind M t = some p0) :
    ∀ (gl : List (Nat × List Str)),
      swOfGroups t cid gl = [] →
      (∀ mi ∈ imOfGroups t cid gl, mi.candidateLowered = M) →
      swOfGroups M cid gl = (imOfGroups t cid gl).map reMark := by
  intro gl
  induction gl with
  | nil => intro _ _; rfl
  | cons q rest ih =>
    intro hsw hall
    cases hb : groupBest t cid q.1 q.2 with
    | none =>
      have hnil : q.2 = [] := (groupBest_eq_none_iff t cid q.1 q.2).mp hb
      have hbM : groupBest M cid q.1 q.2 = none := by
        rw [(groupBest_eq_none_iff M cid q.1 q.2)]
        exact hnil
      have h1 : swOfGroups M cid (q :: rest) = swOfGroups M cid rest := by
        simp only [swOfGroups, List.filterMap_cons, hbM]
      have h2 : imOfGroups t cid (q :: rest) = imOfGroups t cid rest := by
        simp only [imOfGroups, List.filterMap_cons, hb]
      have h3 : swOfGroups t cid (q :: rest) = swOfGroups t cid rest := by
        simp only [swOfGroups, List.filterMap_cons, hb]
      rw [h3] at hsw
      rw [h2] at hall
      rw [h1, h2]
      exact ih hsw hall
    | some b =>
      by_cases h0 : b.pos = some 0
      · exfalso
        have h3 : swOfGroups t cid (q :: rest) = b :: swOfGroups t cid rest := by
          simp only [swOfGroups, List.filterMap_cons, hb, if_pos h0]
        rw [h3] at hsw
        cases hsw
      · have h3 : swOfGroups t cid (q :: rest) = swOfGroups t cid rest := by
          simp only [swOfGroups, List.filterMap_cons, hb, if_neg h0]
        rw [h3] at hsw
        by_cases hn : b.pos = none
        · obtain ⟨b2, hbM, hb2⟩ :=
            groupBest_none_stable t M cid q.1 q.2 b ht p0 hocc hb hn
          have h1 : swOfGroups M cid (q :: rest) = swOfGroups M cid rest := by
            simp only [swOfGroups, List.filterMap_cons, hbM]
            rw [if_neg (by rw [hb2]; simp)]
          have h2 : imOfGroups t cid (q :: rest) = imOfGroups t cid rest := by
            simp only [imOfGroups, List.filterMap_cons, hb, if_neg h0]
            rw [if_neg (by simpa using hn)]
          rw [h2] at hall
          rw [h1, h2]
          exact ih hsw hall
        · have h2 : imOfGroups t cid (q :: rest) = b :: imOfGroups t cid rest := by
            simp only [imOfGroups, List.filterMap_cons, hb, if_neg h0]
            rw [if_pos (by simpa using hn)]
          have hcl : b.candidateLowered = M := by
            refine hall b ?_
            rw [h2]
            exact List.mem_cons_self _ _
          have hbM := groupBest_exact_stable t M cid q.1 q.2 b hb hcl
          obtain ⟨a, ha, hmk⟩ := groupBest_mk t cid q.1 q.2 b hb
          have hb_cid : b.commandID = cid := by rw [hmk]; rfl
          have hb_gid : b.groupID = q.1 := by rw [hmk]; rfl
          have hre : ({ pos := some 0, notMatchingCharCount := 0, commandID := cid,
                        groupID := q.1, candidate := b.candidate,
                        candidateLowered := M } : MatchInfo) = reMark b := by
            unfold reMark
            rw [← hb_cid, ← hb_gid, ← hcl]
          have h1 : swOfGroups M cid (q :: rest) = reMark b :: swOfGroups M cid rest := by
            simp only [swOfGroups, List.filterMap_cons, hbM, hre]
            rw [if_pos (show (reMark b).pos = some 0 from rfl)]
          rw [h1, h2, List.map_cons]
          have hall2 : ∀ mi ∈ imOfGroups t cid rest, mi.candidateLowered = M := by
            intro mi hmi
            refine hall mi ?_
            rw [h2]
            exact List.mem_cons_of_mem b hmi
          rw [ih hsw hall2]

lemma swOfCmds_prefix_stable (lim : Bool) (tid : Nat) (t M : Str) (ht : t ≠ [])
    (htM : t.isPrefixOf M = true) :
    ∀ (le : List (Nat × ConsoleCommand)) (a : List Bool),
      (∀ mi ∈ swOfCmds lim tid t le a, mi.candidateLowered = M) →
      swOfCmds lim tid M le a = (swOfCmds lim tid t le a).map reMark := by
  intro le
  induction le with
  | nil => intro a _; rfl
  | cons p rest ih =>
    intro a hall
    by_cases hc : a.getD p.1 false = true ∧ tid < cmdEndOf lim p.2
    · have h1 : swOfCmds lim tid t (p :: rest) a =
          swOfGroups t p.1 ((p.2.generators.getD tid []).enum) ++
            swOfCmds lim tid t rest (a.set p.1 false) := by
        simp only [swOfCmds]
        rw [if_pos hc]
      have h2 : swOfCmds lim tid M (p :: rest) a =
          swOfGroups M p.1 ((p.2.generators.getD tid []).enum) ++
            swOfCmds lim tid M rest (a.set p.1 false) := by
        simp only [swOfCmds]
        rw [if_pos hc]
      rw [h1] at hall
      have hallG : ∀ mi ∈ swOfGroups t p.1 ((p.2.generators.getD tid []).enum),
          mi.candidateLowered = M :=
        fun mi hmi => hall mi (List.mem_append.mpr (Or.inl hmi))
      have hallR : ∀ mi ∈ swOfCmds lim tid t rest (a.set p.1 false),
          mi.candidateLowered = M :=
        fun mi hmi => hall mi (List.mem_append.mpr (Or.inr hmi))
      rw [h1, h2, swOfGroups_prefix_stable t M p.1 ht htM _ hallG, ih _ hallR,
        List.map_append]
    · have h1 : swOfCmds lim tid t (p :: rest) a = swOfCmds lim tid t rest a := by
        simp only [swOfCmds]
        rw [if_neg hc]
      have h2 : swOfCmds lim tid M (p :: rest) a = swOfCmds lim tid M rest a := by
        simp only [swOfCmds]
        rw [if_neg hc]
      rw [h1] at hall
      rw [h1, h2]
      exact ih _ hall

lemma swOfCmds_middle_stable (lim : Bool) (tid : Nat) (t M : Str) (ht : t ≠ [])
    (p0 : Nat) (hocc : strFind M t = some p0) :
    ∀ (le : List (Nat × ConsoleCommand)) (a : List Bool),
      swOfCmds lim tid t le a = [] →
      (∀ mi ∈ imOfCmds lim tid t le a, mi.candidateLowered = M) →
      swOfCmds lim tid M le a = (imOfCmds lim tid t le a).map reMark := by
  intro le
  induction le with
  | nil => intro a _ _; rfl
  | cons p rest ih =>
    intro a hsw hall
    by_cases hc : a.getD p.1 false = true ∧ tid < cmdEndOf lim p.2
    · have h1 : swOfCmds lim tid t (p :: rest) a =
          swOfGroups t p.1 ((p.2.generators.getD tid []).enum) ++
            swOfCmds lim tid t rest (a.set p.1 false) := by
        simp only [swOfCmds]
        rw [if_pos hc]
      have h2 : swOfCmds lim tid M (p :: rest) a =
          swOfGroups M p.1 ((p.2.generators.getD tid []).enum) ++
            swOfCmds lim tid M rest (a.set p.1 false) := by
        simp only [swOfCmds]
        rw [if_pos hc]
      have h3 : imOfCmds lim tid t (p :: rest) a =
          imOfGroups t p.1 ((p.2.generators.getD tid []).enum) ++
            imOfCmds lim tid t rest (a.set p.1 false) := by
        simp only [imOfCmds]
        rw [if_pos hc]
      rw [h1] at hsw
      rw [h3] at hall
      have hswG : swOfGroups t p.1 ((p.2.generators.getD tid []).enum) = [] :=
        List.append_eq_nil.mp hsw |>.1
      have hswR : swOfCmds lim tid t rest (a.set p.1 false) = [] :=
        List.append_eq_nil.mp hsw |>.2
      have hallG : ∀ mi ∈ imOfGroups t p.1 ((p.2.generators.getD tid []).enum),
          mi.candidateLowered = M :=
        fun mi hmi => hall mi (List.mem_append.mpr (Or.inl hmi))
      have hallR : ∀ mi ∈ imOfCmds lim tid t rest (a.set p.1 false),
          mi.candidateLowered = M :=
        fun mi hmi => hall mi (List.mem_append.mpr (Or.inr hmi))
      rw [h2, h3, swOfGroups_middle_stable t M p.1 ht p0 hocc _ hswG hallG,
        ih _ hswR hallR, List.map_append]
    · have h1 : swOfCmds lim tid t (p :: rest) a = swOfCmds lim tid t rest a := by
        simp only [swOfCmds]
        rw [if_neg hc]
      have h2 : swOfCmds lim tid M (p :: rest) a = swOfCmds lim tid M rest a := by
        simp only [swOfCmds]
        rw [if_neg hc]
      have h3 : imOfCmds lim tid t (p :: rest) a = imOfCmds lim tid t rest a := by
        simp only [imOfCmds]
        rw [if_neg hc]
      rw [h1] at hsw
      rw [h3] at hall
      rw [h2, h3]
      exact ih _ hsw hall

lemma bucketCommon_const (M : Str) (b : List MatchInfo) (hne : b ≠ [])
    (hall : ∀ mi ∈ b, mi.candidateLowered = M) : bucketCommon b = M.length := by
  cases b with
  | nil => exact absurd rfl hne
  | cons first rest =>
    simp only [bucketCommon]
    have hfirst : first.candidateLowered = M := hall first (List.mem_cons_self _ _)
    rw [hfirst]
    refine le_antisymm
      (foldl_min_le_start (fun mi : MatchInfo => commonStartLength M mi.candidateLowered) _ _) ?_
    refine foldl_min_ge_all (fun mi : MatchInfo => commonStartLength M mi.candidateLowered) M.length
      _ _ ?_ (Nat.le_refl _)
    intro mi hmi
    show M.length ≤ commonStartLength M mi.candidateLowered
    rw [hall mi hmi, commonStartLength_self]

lemma bucketLongest_const (M : Str) (b : List MatchInfo) (hne : b ≠ [])
    (hall : ∀ mi ∈ b, mi.candidateLowered = M) : bucketLongest b = M.length := by
  cases b with
  | nil => exact absurd rfl hne
  | cons first rest =>
    simp only [bucketLongest]
    have hfirst : first.candidateLowered = M := hall first (List.mem_cons_self _ _)
    rw [hfirst]
    refine le_antisymm ?_
      (foldl_max_ge_start (fun mi : MatchInfo => mi.candidateLowered.length) _ _)
    refine foldl_max_le_all (fun mi : MatchInfo => mi.candidateLowered.length) M.length
      _ _ ?_ (Nat.le_refl _)
    intro mi hmi
    show mi.candidateLowered.length ≤ M.length
    rw [hall mi hmi]

/-- The exhaustion condition forces every selected-bucket entry to share the
same lowered candidate: the common prefix length already equals the longest
candidate length, so all candidates coincide. -/
lemma exhausted_all_eq (first : MatchInfo) (rest : List MatchInfo)
    (hlen : ∀ mi ∈ first :: rest, mi.candidateLowered.length = mi.candidate.length)
    (hx : bucketLongest (first :: rest) =
      (first.candidate.take (bucketCommon (first :: rest))).length) :
    ∀ mi ∈ first :: rest, mi.candidateLowered = first.candidateLowered := by
  set common := bucketCommon (first :: rest) with hcommon
  have hcle : common ≤ first.candidateLowered.length := by
    rw [hcommon]
    simp only [bucketCommon]
    exact foldl_min_le_start (fun mi : MatchInfo => commonStartLength first.candidateLowered mi.candidateLowered) _ _
  have hflen : first.candidateLowered.length = first.candidate.length :=
    hlen first (List.mem_cons_self _ _)
  have htake : (first.candidate.take common).length = common := by
    rw [List.length_take]
    omega
  have hlongest : bucketLongest (first :: rest) = common := by rw [hx, htake]
  intro mi hmi
  have h1 : common ≤ commonStartLength first.candidateLowered mi.candidateLowered := by
    rw [hcommon]
    simp only [bucketCommon]
    exact foldl_min_le_each (fun mi : MatchInfo => commonStartLength first.candidateLowered mi.candidateLowered) (first :: rest) _ mi hmi
  have h2 : mi.candidateLowered.length ≤ common := by
    rw [← hlongest]
    simp only [bucketLongest]
    exact foldl_max_ge_each (fun mi : MatchInfo => mi.candidateLowered.length) (first :: rest) _ mi hmi
  have h3 : commonStartLength first.candidateLowered mi.candidateLowered ≤
      mi.candidateLowered.length := commonStartLength_le_right _ _
  have h4 : first.candidateLowered.length ≤ common := by
    rw [← hlongest]
    simp only [bucketLongest]
    exact foldl_max_ge_each (fun mi : MatchInfo => mi.candidateLowered.length) (first :: rest) _ first (List.mem_cons_self _ _)
  have h5 : commonStartLength first.candidateLowered mi.candidateLowered =
      first.candidateLowered.length := by
    have := commonStartLength_le_left first.candidateLowered mi.candidateLowered
    omega
  have h6 : first.candidateLowered.length = mi.candidateLowered.length := by omega
  exact (commonStartLength_full_eq _ _ h5 h6).symm

lemma bucketMarkAlive_map_reMark :
    ∀ (b : List MatchInfo) (alive : List Bool),
      bucketMarkAlive alive (b.map reMark) = bucketMarkAlive alive b := by
  intro b
  induction b with
  | nil => intro alive; rfl
  | cons mi rest ih =>
    intro alive
    unfold bucketMarkAlive at *
    rw [List.map_cons, List.foldl_cons, List.foldl_cons]
    have : (reMark mi).commandID = mi.commandID := rfl
    rw [this]
    exact ih _

lemma applyBuckets_eq_applyBucket (alive : List Bool) (nt : List (Str × Bool))
    (tid : Nat) (sw im : List MatchInfo) :
    applyBuckets alive nt tid sw im =
      applyBucket alive nt tid (if sw = [] then im else sw) := by
  unfold applyBuckets
  by_cases hsw : sw = []
  · rw [if_pos hsw, if_neg (by simpa using hsw)]
    by_cases him : im = []
    · rw [if_neg (by simpa using him), him]
      rfl
    · rw [if_pos him]
  · rw [if_neg hsw, if_pos hsw]

lemma tokenStep_shape (cmds : List ConsoleCommand) (lim : Bool) (A : List Bool)
    (nt : List (Str × Bool)) (tid : Nat) (tok : Str) :
    tokenStep cmds lim (A, nt) (tid, tok) =
      (stepAliveOut cmds lim A tid tok,
        match stepUpd cmds lim A tid tok with
        | none => nt
        | some p => nt.set tid p) := by
  unfold tokenStep
  rw [scanToken_decompose]
  show applyBuckets (aliveAfter lim tid cmds.enum A) nt tid
      (swOfCmds lim tid tok cmds.enum A) (imOfCmds lim tid tok cmds.enum A) = _
  rw [applyBuckets_eq_applyBucket]
  unfold stepAliveOut stepUpd stepSel
  cases hsel : (if swOfCmds lim tid tok cmds.enum A = [] then
      imOfCmds lim tid tok cmds.enum A else swOfCmds lim tid tok cmds.enum A) with
  | nil => rfl
  | cons first rest =>
    simp only [applyBucket]
    by_cases hc : bucketCommon (first :: rest) ≠ 0
    · rw [if_pos hc, if_pos hc]
    · rw [if_neg hc, if_neg hc]

lemma swOfCmds_entry_shape (lim : Bool) (tid : Nat) (tok : Str)
    (le : List (Nat × ConsoleCommand)) (a : List Bool) (mi : MatchInfo)
    (h : mi ∈ swOfCmds lim tid tok le a) :
    mi.candidateLowered = lowerStr mi.candidate ∧
      mi.pos = strFind mi.candidateLowered tok := by
  obtain ⟨p, _, q, _, hgb, _⟩ := swOfCmds_mem lim tid tok le a mi h
  obtain ⟨al, _, hmk⟩ := groupBest_mk tok p.1 q.1 q.2 mi hgb
  rw [hmk]
  exact ⟨rfl, rfl⟩

lemma imOfCmds_entry_shape (lim : Bool) (tid : Nat) (tok : Str)
    (le : List (Nat × ConsoleCommand)) (a : List Bool) (mi : MatchInfo)
    (h : mi ∈ imOfCmds lim tid tok le a) :
    mi.candidateLowered = lowerStr mi.candidate ∧
      mi.pos = strFind mi.candidateLowered tok := by
  obtain ⟨p, _, q, _, hgb, _⟩ := imOfCmds_mem lim tid tok le a mi h
  obtain ⟨al, _, hmk⟩ := groupBest_mk tok p.1 q.1 q.2 mi hgb
  rw [hmk]
  exact ⟨rfl, rfl⟩

/-- The step-stability theorem behind idempotence: when a token step rewrites
the token to `text` and marks it exhausted, repeating the step with the
lowered `text` as the typed token produces the same alive flags and the same
rewrite. -/
lemma step_exhausted_stable (cmds : List ConsoleCommand) (lim : Bool) (A : List Bool)
    (tid : Nat) (tok : Str) (htok : tok ≠ []) (text : Str)
    (h : stepUpd cmds lim A tid tok = some (text, true)) :
    stepAliveOut cmds lim A tid (lowerStr text) = stepAliveOut cmds lim A tid tok ∧
      stepUpd cmds lim A tid (lowerStr text) = some (text, true) := by
  cases hsel : stepSel cmds lim A tid tok with
  | nil =>
    unfold stepUpd at h
    simp only [hsel] at h
    cases h
  | cons first rest =>
    unfold stepUpd at h
    simp only [hsel] at h
    by_cases hc : bucketCommon (first :: rest) ≠ 0
    · rw [if_pos hc] at h
      obtain ⟨htext, hexh⟩ := Prod.mk.injEq _ _ _ _ ▸ Option.some.inj h
      -- provenance: every entry of the selected bucket is a mkInfo record
      have hshape : ∀ mi ∈ first :: rest, mi.candidateLowered = lowerStr mi.candidate ∧
          mi.pos = strFind mi.candidateLowered tok := by
        intro mi hmi
        rw [← hsel] at hmi
        unfold stepSel at hmi
        by_cases hsw : swOfCmds lim tid tok cmds.enum A = []
        · rw [if_pos hsw] at hmi
          exact imOfCmds_entry_shape lim tid tok cmds.enum A mi hmi
        · rw [if_neg hsw] at hmi
          exact swOfCmds_entry_shape lim tid tok cmds.enum A mi hmi
      have hlen : ∀ mi ∈ first :: rest, mi.candidateLowered.length = mi.candidate.length := by
        intro mi hmi
        rw [(hshape mi hmi).1, lowerStr_length]
      have hexh2 : bucketLongest (first :: rest) =
          (first.candidate.take (bucketCommon (first :: rest))).length := by
        simpa using hexh
      have hall : ∀ mi ∈ first :: rest, mi.candidateLowered = first.candidateLowered :=
        exhausted_all_eq first rest hlen hexh2
      set M := first.candidateLowered with hM
      have hMlen : bucketCommon (first :: rest) = M.length :=
        bucketCommon_const M (first :: rest) (by simp) hall
      have hflen : M.length = first.candidate.length := by
        rw [hM, (hshape first (List.mem_cons_self _ _)).1, lowerStr_length]
      have htext2 : text = first.candidate := by
        rw [← htext, hMlen]
        exact List.take_of_length_le (by omega)
      have hlowtext : lowerStr text = M := by
        rw [htext2, hM, (hshape first (List.mem_cons_self _ _)).1]
      have hMne : M ≠ [] := by
        intro hnil
        rw [hMlen, hnil] at hc
        exact hc rfl
      -- the two cases: selected bucket was the starts-with or in-middle bucket
      by_cases hsw : swOfCmds lim tid tok cmds.enum A = []
      · -- middle case
        have hselim : imOfCmds lim tid tok cmds.enum A = first :: rest := by
          rw [← hsel]
          unfold stepSel
          rw [if_pos hsw]
        have hfirstmem : first ∈ imOfCmds lim tid tok cmds.enum A := by
          rw [hselim]
          exact List.mem_cons_self _ _
        obtain ⟨p1, hocc1⟩ : ∃ p1, strFind M tok = some p1 := by
          obtain ⟨p, _, q, _, hgb, hpos0, hposn⟩ :=
            imOfCmds_mem lim tid tok cmds.enum A first hfirstmem
          have hposf := (hshape first (List.mem_cons_self _ _)).2
          rw [← hM] at hposf
          cases hpp : first.pos with
          | none => exact absurd hpp hposn
          | some k =>
            refine ⟨k, ?_⟩
            rw [← hposf, hpp]
        have hsw2 := swOfCmds_middle_stable lim tid tok M htok p1 hocc1 cmds.enum A hsw
          (by
            intro mi hmi
            rw [hselim] at hmi
            exact hall mi hmi)
        rw [hselim] at hsw2
        have hsw2ne : swOfCmds lim tid (lowerStr text) cmds.enum A =
            (first :: rest).map reMark := by
          rw [hlowtext]
          exact hsw2
        have hsel2 : stepSel cmds lim A tid (lowerStr text) = (first :: rest).map reMark := by
          unfold stepSel
          rw [hsw2ne]
          rw [if_neg (by simp)]
        constructor
        · unfold stepAliveOut
          rw [hsel2, hsel, bucketMarkAlive_map_reMark]
        · unfold stepUpd
          simp only [hsel2, List.map_cons]
          have hallre : ∀ mi ∈ reMark first :: (rest.map reMark), mi.candidateLowered = M := by
            intro mi hmi
            rw [← List.map_cons] at hmi
            obtain ⟨mi0, hmi0, hmi0e⟩ := List.mem_map.mp hmi
            rw [← hmi0e]
            show mi0.candidateLowered = M
            exact hall mi0 hmi0
          have hc2 : bucketCommon (reMark first :: rest.map reMark) = M.length := by
            refine bucketCommon_const M _ (by simp) ?_
            exact hallre
          have hl2 : bucketLongest (reMark first :: rest.map reMark) = M.length := by
            refine bucketLongest_const M _ (by simp) ?_
            exact hallre
          rw [if_pos (by rw [hc2]; intro hz; exact hMne (List.length_eq_zero.mp hz))]
          have hcand : (reMark first).candidate = first.candidate := rfl
          rw [hc2, hl2, hcand, ← htext2]
          have httext : List.take (List.length M) text = text :=
            List.take_of_length_le (by rw [htext2]; omega)
          rw [httext]
          have htlen : text.length = M.length := by
            rw [htext2]
            omega
          rw [htlen]
          simp
      · -- prefix case
        have hselsw : swOfCmds lim tid tok cmds.enum A = first :: rest := by
          rw [← hsel]
          unfold stepSel
          rw [if_neg hsw]
        have hfirstmem : first ∈ swOfCmds lim tid tok cmds.enum A := by
          rw [hselsw]
          exact List.mem_cons_self _ _
        have hpre : tok.isPrefixOf M = true := by
          obtain ⟨p, _, q, _, hgb, hpos0⟩ :=
            swOfCmds_mem lim tid tok cmds.enum A first hfirstmem
          have hposf := (hshape first (List.mem_cons_self _ _)).2
          rw [← hM] at hposf
          refine (strFind_eq_some_zero_iff M tok).mp ?_
          rw [← hposf]
          exact hpos0
        have hsw2 := swOfCmds_prefix_stable lim tid tok M htok hpre cmds.enum A
          (by
            intro mi hmi
            rw [hselsw] at hmi
            exact hall mi hmi)
        rw [hselsw] at hsw2
        have hsw2ne : swOfCmds lim tid (lowerStr text) cmds.enum A =
            (first :: rest).map reMark := by
          rw [hlowtext]
          exact hsw2
        have hsel2 : stepSel cmds lim A tid (lowerStr text) = (first :: rest).map reMark := by
          unfold stepSel
          rw [hsw2ne]
          rw [if_neg (by simp)]
        constructor
        · unfold stepAliveOut
          rw [hsel2, hsel, bucketMarkAlive_map_reMark]
        · unfold stepUpd
          simp only [hsel2, List.map_cons]
          have hallre : ∀ mi ∈ reMark first :: (rest.map reMark), mi.candidateLowered = M := by
            intro mi hmi
            rw [← List.map_cons] at hmi
            obtain ⟨mi0, hmi0, hmi0e⟩ := List.mem_map.mp hmi
            rw [← hmi0e]
            show mi0.candidateLowered = M
            exact hall mi0 hmi0
          have hc2 : bucketCommon (reMark first :: rest.map reMark) = M.length := by
            refine bucketCommon_const M _ (by simp) ?_
            exact hallre
          have hl2 : bucketLongest (reMark first :: rest.map reMark) = M.length := by
            refine bucketLongest_const M _ (by simp) ?_
            exact hallre
          rw [if_pos (by rw [hc2]; intro hz; exact hMne (List.length_eq_zero.mp hz))]
          have hcand : (reMark first).candidate = first.candidate := rfl
          rw [hc2, hl2, hcand, ← htext2]
          have httext : List.take (List.length M) text = text :=
            List.take_of_length_le (by rw [htext2]; omega)
          rw [httext]
          have htlen : text.length = M.length := by
            rw [htext2]
            omega
          rw [htlen]
          simp
    · rw [if_neg hc] at h
      cases h

lemma runFrom_cons (cmds : List ConsoleCommand) (lim : Bool) (t : Nat) (tok : Str)
    (rest : List Str) (acc : List Bool × List (Str × Bool)) :
    runFrom cmds lim t (tok :: rest) acc =
      runFrom cmds lim (t + 1) rest (tokenStep cmds lim acc (t, tok)) := rfl

lemma foldl_enumFrom_eq_runFrom (cmds : List ConsoleCommand) (lim : Bool) :
    ∀ (toks : List Str) (n : Nat) (acc : List Bool × List (Str × Bool)),
      (List.enumFrom n toks).foldl (tokenStep cmds lim) acc = runFrom cmds lim n toks acc := by
  intro toks
  induction toks with
  | nil => intro n acc; rfl
  | cons tok rest ih =>
    intro n acc
    show ((n, tok) :: List.enumFrom (n + 1) rest).foldl (tokenStep cmds lim) acc = _
    rw [List.foldl_cons, runFrom_cons]
    exact ih (n + 1) _

lemma runTokens_eq_runFrom (cmds : List ConsoleCommand) (lim : Bool)
    (lowered : List Str) (nt0 : List (Str × Bool)) :
    runTokens cmds lim lowered nt0 =
      runFrom cmds lim 0 lowered (List.replicate cmds.length true, nt0) := by
  unfold runTokens
  rw [show lowered.enum = List.enumFrom 0 lowered from rfl]
  exact foldl_enumFrom_eq_runFrom cmds lim lowered 0 _

lemma listGetD_set_ne {α : Type} :
    ∀ (l : List α) (i j : Nat) (x d : α), i ≠ j → (l.set i x).getD j d = l.getD j d := by
  intro l
  induction l with
  | nil => intro i j x d _; rfl
  | cons a as ih =>
    intro i j x d hij
    cases i with
    | zero =>
      cases j with
      | zero => exact absurd rfl hij
      | succ k => simp [List.set]
    | succ m =>
      cases j with
      | zero => simp [List.set]
      | succ k =>
        simp only [List.set, List.getD_cons_succ]
        exact ih m k x d (by omega)

lemma listGetD_set_self {α : Type} :
    ∀ (l : List α) (i : Nat) (x d : α), i < l.length → (l.set i x).getD i d = x := by
  intro l
  induction l with
  | nil => intro i x d hi; simp at hi
  | cons a as ih =>
    intro i x d hi
    cases i with
    | zero => rfl
    | succ m =>
      simp only [List.set, List.getD_cons_succ]
      exact ih m x d (by simpa using hi)

lemma tokenStep_nt_length (cmds : List ConsoleCommand) (lim : Bool) (A : List Bool)
    (nt : List (Str × Bool)) (tid : Nat) (tok : Str) :
    (tokenStep cmds lim (A, nt) (tid, tok)).2.length = nt.length := by
  rw [tokenStep_shape]
  cases stepUpd cmds lim A tid tok with
  | none => rfl
  | some p => simp

lemma runFrom_nt_length (cmds : List ConsoleCommand) (lim : Bool) :
    ∀ (toks : List Str) (t : Nat) (acc : List Bool × List (Str × Bool)),
      (runFrom cmds lim t toks acc).2.length = acc.2.length := by
  intro toks
  induction toks with
  | nil => intro t acc; rfl
  | cons tok rest ih =>
    intro t acc
    rw [runFrom_cons, ih]
    obtain ⟨A, nt⟩ := acc
    exact tokenStep_nt_length cmds lim A nt t tok

lemma runFrom_getD_lt (cmds : List ConsoleCommand) (lim : Bool) (d : Str × Bool) :
    ∀ (toks : List Str) (t : Nat) (acc : List Bool × List (Str × Bool)) (i : Nat),
      i < t → (runFrom cmds lim t toks acc).2.getD i d = acc.2.getD i d := by
  intro toks
  induction toks with
  | nil => intro t acc i _; rfl
  | cons tok rest ih =>
    intro t acc i hi
    rw [runFrom_cons, ih _ _ i (by omega)]
    obtain ⟨A, nt⟩ := acc
    rw [tokenStep_shape]
    cases stepUpd cmds lim A t tok with
    | none => rfl
    | some p =>
      show (nt.set t p).getD i d = nt.getD i d
      exact listGetD_set_ne nt t i p d (by omega)

lemma lowerStr_ne_nil {s : Str} (hs : s ≠ []) : lowerStr s ≠ [] := by
  intro hcon
  apply hs
  have := congrArg List.length hcon
  rw [lowerStr_length] at this
  exact List.length_eq_zero.mp this

/-- The relational core of idempotence: re-running the token loop on the
texts produced by a completed run — provided every rewritten entry was marked
exhausted — reproduces the same alive flags and the same entries. -/
lemma runFrom_stable (cmds : List ConsoleCommand) (lim : Bool) :
    ∀ (origs : List Str) (t : Nat) (A : List Bool) (nt1 nt2 : List (Str × Bool))
      (T2 : List Str),
      (∀ s ∈ origs, s ≠ []) →
      t + origs.length ≤ nt1.length →
      nt2.length = nt1.length →
      (∀ k, k < origs.length → nt1.getD (t + k) ([], false) = (origs.getD k [], false)) →
      (∀ k, k < origs.length →
        ((runFrom cmds lim t (origs.map lowerStr) (A, nt1)).2.getD (t + k) ([], false)).2
            = true ∨
          (runFrom cmds lim t (origs.map lowerStr) (A, nt1)).2.getD (t + k) ([], false) =
            (origs.getD k [], false)) →
      T2.length = origs.length →
      (∀ k, k < origs.length → T2.getD k [] =
        ((runFrom cmds lim t (origs.map lowerStr) (A, nt1)).2.getD (t + k) ([], false)).1) →
      (∀ k, k < origs.length → nt2.getD (t + k) ([], false) =
        (((runFrom cmds lim t (origs.map lowerStr) (A, nt1)).2.getD (t + k) ([], false)).1,
          false)) →
      (runFrom cmds lim t (T2.map lowerStr) (A, nt2)).1 =
          (runFrom cmds lim t (origs.map lowerStr) (A, nt1)).1 ∧
        ∀ i, (runFrom cmds lim t (T2.map lowerStr) (A, nt2)).2.getD i ([], false) =
          (if t ≤ i ∧ i < t + origs.length
            then (runFrom cmds lim t (origs.map lowerStr) (A, nt1)).2.getD i ([], false)
            else nt2.getD i ([], false)) := by
  intro origs
  induction origs with
  | nil =>
    intro t A nt1 nt2 T2 _ _ _ _ _ hT2len _ _
    have hT2nil : T2 = [] := List.length_eq_zero.mp (by simpa using hT2len)
    subst hT2nil
    refine ⟨rfl, ?_⟩
    intro i
    rw [if_neg (by simp only [List.length_nil]; omega)]
    rfl
  | cons s origs0 ih =>
    intro t A nt1 nt2 T2 horigs hb1 hlen12 hnt1 hexh hT2len hT2 hnt2
    have hslen : s ≠ [] := horigs s (List.mem_cons_self _ _)
    cases T2 with
    | nil => simp at hT2len
    | cons s2 T20 =>
    have hT20len : T20.length = origs0.length := by simpa using hT2len
    have hrun1 : runFrom cmds lim t ((s :: origs0).map lowerStr) (A, nt1) =
        runFrom cmds lim (t + 1) (origs0.map lowerStr)
          (tokenStep cmds lim (A, nt1) (t, lowerStr s)) := by
      rw [List.map_cons, runFrom_cons]
    have hstep1 := tokenStep_shape cmds lim A nt1 t (lowerStr s)
    have hbt : t < nt1.length := by
      simp only [List.length_cons] at hb1
      omega
    have hs2val : s2 = ((runFrom cmds lim t ((s :: origs0).map lowerStr)
        (A, nt1)).2.getD (t + 0) ([], false)).1 := by
      have := hT2 0 (by simp)
      simpa using this
    cases hu : stepUpd cmds lim A t (lowerStr s) with
    | none =>
      have hnt1step : tokenStep cmds lim (A, nt1) (t, lowerStr s) =
          (stepAliveOut cmds lim A t (lowerStr s), nt1) := by
        rw [hstep1, hu]
      have hFeq : (runFrom cmds lim t ((s :: origs0).map lowerStr) (A, nt1)).2 =
          (runFrom cmds lim (t + 1) (origs0.map lowerStr)
            (stepAliveOut cmds lim A t (lowerStr s), nt1)).2 := by
        rw [hrun1, hnt1step]
      have hFt : (runFrom cmds lim t ((s :: origs0).map lowerStr)
          (A, nt1)).2.getD t ([], false) = (s, false) := by
        rw [hFeq, runFrom_getD_lt cmds lim ([], false) _ _ _ t (by omega)]
        have := hnt1 0 (by simp)
        simpa using this
      have hs2 : s2 = s := by
        rw [hs2val]
        rw [Nat.add_zero, hFt]
      have hstep2 : tokenStep cmds lim (A, nt2) (t, lowerStr s2) =
          (stepAliveOut cmds lim A t (lowerStr s), nt2) := by
        rw [hs2, tokenStep_shape, hu]
      obtain ⟨ihA, ihP⟩ := ih (t + 1) (stepAliveOut cmds lim A t (lowerStr s)) nt1 nt2 T20
        (fun x hx => horigs x (List.mem_cons_of_mem s hx))
        (by simp only [List.length_cons] at hb1; omega)
        hlen12
        (by
          intro k hk
          have := hnt1 (k + 1) (by simpa using Nat.succ_lt_succ hk)
          have harith : t + (k + 1) = t + 1 + k := by omega
          rw [harith] at this
          simpa using this)
        (by
          intro k hk
          have := hexh (k + 1) (by simpa using Nat.succ_lt_succ hk)
          have harith : t + (k + 1) = t + 1 + k := by omega
          rw [harith, hFeq] at this
          simpa using this)
        hT20len
        (by
          intro k hk
          have := hT2 (k + 1) (by simpa using Nat.succ_lt_succ hk)
          have harith : t + (k + 1) = t + 1 + k := by omega
          rw [harith, hFeq] at this
          simpa using this)
        (by
          intro k hk
          have := hnt2 (k + 1) (by simpa using Nat.succ_lt_succ hk)
          have harith : t + (k + 1) = t + 1 + k := by omega
          rw [harith, hFeq] at this
          simpa using this)
      have hrun2 : runFrom cmds lim t ((s2 :: T20).map lowerStr) (A, nt2) =
          runFrom cmds lim (t + 1) (T20.map lowerStr)
            (stepAliveOut cmds lim A t (lowerStr s), nt2) := by
        rw [List.map_cons, runFrom_cons, hstep2]
      constructor
      · rw [hrun2, hrun1, hnt1step]
        exact ihA
      · intro i
        rw [hrun2]
        have := ihP i
        rw [this]
        by_cases hi1 : t + 1 ≤ i ∧ i < t + 1 + origs0.length
        · rw [if_pos hi1, if_pos (by simp only [List.length_cons]; omega), ← hFeq]
        · by_cases hit : i = t
          · rw [hit]
            rw [if_neg (by omega), if_pos (by simp only [List.length_cons]; omega), hFt]
            have := hnt2 0 (by simp)
            rw [Nat.add_zero] at this
            rw [this, hFt]
          · rw [if_neg hi1, if_neg (by simp only [List.length_cons]; omega)]
    | some p =>
      obtain ⟨text, ex⟩ := p
      have hnt1step : tokenStep cmds lim (A, nt1) (t, lowerStr s) =
          (stepAliveOut cmds lim A t (lowerStr s), nt1.set t (text, ex)) := by
        rw [hstep1, hu]
      have hFeq : (runFrom cmds lim t ((s :: origs0).map lowerStr) (A, nt1)).2 =
          (runFrom cmds lim (t + 1) (origs0.map lowerStr)
            (stepAliveOut cmds lim A t (lowerStr s), nt1.set t (text, ex))).2 := by
        rw [hrun1, hnt1step]
      have hFt : (runFrom cmds lim t ((s :: origs0).map lowerStr)
          (A, nt1)).2.getD t ([], false) = (text, ex) := by
        rw [hFeq, runFrom_getD_lt cmds lim ([], false) _ _ _ t (by omega)]
        exact listGetD_set_self nt1 t (text, ex) ([], false) hbt
      have hs2 : s2 = text := by
        rw [hs2val, Nat.add_zero, hFt]
      have hstep2 : tokenStep cmds lim (A, nt2) (t, lowerStr s2) =
          (stepAliveOut cmds lim A t (lowerStr s), nt2.set t (text, ex)) := by
        cases ex with
        | true =>
          have hmon := step_exhausted_stable cmds lim A t (lowerStr s)
            (lowerStr_ne_nil hslen) text hu
          rw [hs2, tokenStep_shape, hmon.2, hmon.1]
        | false =>
          have hx0 := hexh 0 (by simp)
          rw [Nat.add_zero, hFt] at hx0
          rcases hx0 with hx0 | hx0
          · cases hx0
          · have htexts : text = s := by
              have := congrArg Prod.fst hx0
              simpa using this
            rw [hs2, htexts, tokenStep_shape, hu, htexts]
      obtain ⟨ihA, ihP⟩ := ih (t + 1) (stepAliveOut cmds lim A t (lowerStr s))
        (nt1.set t (text, ex)) (nt2.set t (text, ex)) T20
        (fun x hx => horigs x (List.mem_cons_of_mem s hx))
        (by simp only [List.length_cons] at hb1; simp only [List.length_set]; omega)
        (by simp only [List.length_set]; exact hlen12)
        (by
          intro k hk
          rw [listGetD_set_ne nt1 t (t + 1 + k) (text, ex) ([], false) (by omega)]
          have := hnt1 (k + 1) (by simpa using Nat.succ_lt_succ hk)
          have harith : t + (k + 1) = t + 1 + k := by omega
          rw [harith] at this
          simpa using this)
        (by
          intro k hk
          have := hexh (k + 1) (by simpa using Nat.succ_lt_succ hk)
          have harith : t + (k + 1) = t + 1 + k := by omega
          rw [harith, hFeq] at this
          simpa using this)
        hT20len
        (by
          intro k hk
          have := hT2 (k + 1) (by simpa using Nat.succ_lt_succ hk)
          have harith : t + (k + 1) = t + 1 + k := by omega
          rw [harith, hFeq] at this
          simpa using this)
        (by
          intro k hk
          rw [listGetD_set_ne nt2 t (t + 1 + k) (text, ex) ([], false) (by omega)]
          have := hnt2 (k + 1) (by simpa using Nat.succ_lt_succ hk)
          have harith : t + (k + 1) = t + 1 + k := by omega
          rw [harith, hFeq] at this
          simpa using this)
      have hrun2 : runFrom cmds lim t ((s2 :: T20).map lowerStr) (A, nt2) =
          runFrom cmds lim (t + 1) (T20.map lowerStr)
            (stepAliveOut cmds lim A t (lowerStr s), nt2.set t (text, ex)) := by
        rw [List.map_cons, runFrom_cons, hstep2]
      constructor
      · rw [hrun2, hrun1, hnt1step]
        exact ihA
      · intro i
        rw [hrun2]
        have := ihP i
        rw [this]
        by_cases hi1 : t + 1 ≤ i ∧ i < t + 1 + origs0.length
        · rw [if_pos hi1, if_pos (by simp only [List.length_cons]; omega), ← hFeq]
        · by_cases hit : i = t
          · rw [hit]
            rw [if_neg (by omega), if_pos (by simp only [List.length_cons]; omega), hFt]
            exact listGetD_set_self nt2 t (text, ex) ([], false) (by omega)
          · rw [if_neg hi1, if_neg (by simp only [List.length_cons]; omega)]
            exact listGetD_set_ne nt2 t i (text, ex) ([], false) (by omega)

lemma tokenizeAux_props :
    ∀ (l : List Char) (cur : Str), cur.all (fun c => !cppIsSpace c) = true →
      ∀ tok ∈ tokenizeAux l cur, goodToken tok := by
  intro l
  induction l with
  | nil =>
    intro cur hcur tok htok
    unfold tokenizeAux at htok
    split_ifs at htok with hem
    · cases htok
    · rw [List.mem_singleton.mp htok]
      constructor
      · intro hc
        apply hem
        have := congrArg List.length hc
        simp only [List.length_reverse, List.length_nil] at this
        simpa [List.isEmpty_iff] using List.length_eq_zero.mp this
      · rw [List.all_reverse]
        exact hcur
  | cons c rest ih =>
    intro cur hcur tok htok
    unfold tokenizeAux at htok
    by_cases hws : cppIsSpace c = true
    · rw [if_pos hws] at htok
      split_ifs at htok with hem
      · exact ih [] rfl tok htok
      · rcases List.mem_cons.mp htok with htok | htok
        · rw [htok]
          constructor
          · intro hc
            apply hem
            have := congrArg List.length hc
            simp only [List.length_reverse, List.length_nil] at this
            simpa [List.isEmpty_iff] using List.length_eq_zero.mp this
          · rw [List.all_reverse]
            exact hcur
        · exact ih [] rfl tok htok
    · rw [if_neg hws] at htok
      refine ih (c :: cur) ?_ tok htok
      rw [List.all_cons]
      simp only [Bool.and_eq_true]
      exact ⟨by simpa using hws, hcur⟩

lemma tokenize_props (s : Str) : ∀ tok ∈ tokenize s, goodToken tok :=
  tokenizeAux_props s [] rfl

lemma tokenizeAux_token_seg :
    ∀ (tok : Str) (rest : List Char) (cur : Str),
      tok.all (fun c => !cppIsSpace c) = true →
      tokenizeAux (tok ++ rest) cur = tokenizeAux rest (tok.reverse ++ cur) := by
  intro tok
  induction tok with
  | nil => intro rest cur _; simp
  | cons c t ih =>
    intro rest cur hall
    rw [List.all_cons, Bool.and_eq_true] at hall
    have hc : ¬ cppIsSpace c = true := by simpa using hall.1
    show tokenizeAux (c :: (t ++ rest)) cur = _
    simp only [tokenizeAux]
    rw [if_neg hc]
    rw [ih rest (c :: cur) hall.2]
    congr 1
    simp

lemma tokenize_token_space (tok : Str) (rest : List Char) (hg : goodToken tok) :
    tokenize (tok ++ ' ' :: rest) = tok :: tokenize rest := by
  unfold tokenize
  rw [tokenizeAux_token_seg tok (' ' :: rest) [] hg.2]
  show tokenizeAux (' ' :: rest) (tok.reverse ++ []) = _
  simp only [tokenizeAux]
  rw [if_pos (by simp [cppIsSpace])]
  rw [if_neg (by
    simp only [List.append_nil, List.isEmpty_iff]
    intro hc
    exact hg.1 (by simpa using congrArg List.reverse hc))]
  simp

lemma tokenize_token_end (tok : Str) (hg : goodToken tok) : tokenize tok = [tok] := by
  unfold tokenize
  have h0 : tok = tok ++ [] := by simp
  rw [h0, tokenizeAux_token_seg tok [] [] hg.2]
  show tokenizeAux [] (tok.reverse ++ []) = _
  unfold tokenizeAux
  rw [if_neg (by
    simp only [List.append_nil, List.isEmpty_iff]
    intro hc
    exact hg.1 (by simpa using congrArg List.reverse hc))]
  simp

lemma tokenize_token_end_space (tok : Str) (hg : goodToken tok) :
    tokenize (tok ++ [' ']) = [tok] := by
  unfold tokenize
  rw [tokenizeAux_token_seg tok [' '] [] hg.2]
  show tokenizeAux [' '] (tok.reverse ++ []) = _
  unfold tokenizeAux
  rw [if_pos (by simp [cppIsSpace])]
  rw [if_neg (by
    simp only [List.append_nil, List.isEmpty_iff]
    intro hc
    exact hg.1 (by simpa using congrArg List.reverse hc))]
  simp [tokenizeAux]

lemma tokenize_rejoin :
    ∀ (entries : List (Str × Bool)) (e : Bool),
      (∀ p ∈ entries, goodToken p.1) →
      tokenize (rejoinTokens e entries) = entries.map (fun p => p.1) := by
  intro entries
  induction entries with
  | nil => intro e _; rfl
  | cons p rest ih =>
    intro e hall
    cases rest with
    | nil =>
      show tokenize (p.1 ++ (if e || p.2 then [' '] else [])) = [p.1]
      have hg : goodToken p.1 := hall p (List.mem_cons_self _ _)
      split_ifs with hsp
      · exact tokenize_token_end_space p.1 hg
      · rw [List.append_nil]
        exact tokenize_token_end p.1 hg
    | cons q rest0 =>
      show tokenize (p.1 ++ ' ' :: rejoinTokens e (q :: rest0)) = p.1 :: _
      rw [tokenize_token_space p.1 _ (hall p (List.mem_cons_self _ _))]
      rw [ih e (fun x hx => hall x (List.mem_cons_of_mem p hx))]

lemma rejoin_ne_nil (e : Bool) :
    ∀ (entries : List (Str × Bool)), entries ≠ [] →
      (∀ p ∈ entries, goodToken p.1) → rejoinTokens e entries ≠ [] := by
  intro entries
  induction entries with
  | nil => intro h _; exact absurd rfl h
  | cons p rest _ =>
    intro _ hall
    cases rest with
    | nil =>
      show p.1 ++ (if e || p.2 then [' '] else []) ≠ []
      intro hc
      exact (hall p (List.mem_cons_self _ _)).1 (List.append_eq_nil.mp hc).1
    | cons q rest0 =>
      show p.1 ++ ' ' :: rejoinTokens e (q :: rest0) ≠ []
      intro hc
      have := (List.append_eq_nil.mp hc).2
      cases this

lemma getLastD_append_right {α : Type} (a : List α) :
    ∀ (b : List α) (c : α), b ≠ [] → (a ++ b).getLastD c = b.getLastD c := by
  induction a with
  | nil => intro b c _; rfl
  | cons x xs ih =>
    intro b c hb
    rw [List.cons_append, List.getLastD_cons, ih b _ hb]
    cases b with
    | nil => exact absurd rfl hb
    | cons y ys => rw [List.getLastD_cons, List.getLastD_cons]

lemma rejoin_last_char (e : Bool) (p : Str × Bool) :
    ∀ (entries : List (Str × Bool)),
      (∀ x ∈ entries ++ [p], goodToken x.1) →
      (rejoinTokens e (entries ++ [p])).getLastD ' ' =
        (if e || p.2 then ' ' else p.1.getLastD ' ') := by
  intro entries
  induction entries with
  | nil =>
    intro hall
    show (p.1 ++ (if e || p.2 then [' '] else [])).getLastD ' ' = _
    split_ifs with hsp
    · rw [getLastD_append_right p.1 [' '] ' ' (by simp)]
      rfl
    · rw [List.append_nil]
  | cons q rest ih =>
    intro hall
    have hmain : rejoinTokens e ((q :: rest) ++ [p]) =
        q.1 ++ ' ' :: rejoinTokens e (rest ++ [p]) := by
      cases rest with
      | nil => rfl
      | cons r rest0 => rfl
    rw [hmain]
    rw [getLastD_append_right q.1 (' ' :: rejoinTokens e (rest ++ [p])) ' ' (by simp)]
    rw [List.getLastD_cons]
    exact ih (fun x hx => hall x (List.mem_cons_of_mem q hx))

lemma rejoin_congr_last (e1 e2 : Bool) (p : Str × Bool)
    (h : (e1 || p.2) = (e2 || p.2)) :
    ∀ (entries : List (Str × Bool)),
      rejoinTokens e1 (entries ++ [p]) = rejoinTokens e2 (entries ++ [p]) := by
  intro entries
  induction entries with
  | nil =>
    show p.1 ++ (if e1 || p.2 then [' '] else []) = p.1 ++ (if e2 || p.2 then [' '] else [])
    rw [h]
  | cons q rest ih =>
    have hmain1 : rejoinTokens e1 ((q :: rest) ++ [p]) =
        q.1 ++ ' ' :: rejoinTokens e1 (rest ++ [p]) := by
      cases rest with
      | nil => rfl
      | cons r rest0 => rfl
    have hmain2 : rejoinTokens e2 ((q :: rest) ++ [p]) =
        q.1 ++ ' ' :: rejoinTokens e2 (rest ++ [p]) := by
      cases rest with
      | nil => rfl
      | cons r rest0 => rfl
    rw [hmain1, hmain2, ih]

lemma snd_mem_of_mem_enumFrom {α : Type} :
    ∀ (l : List α) (n : Nat) (p : Nat × α), p ∈ l.enumFrom n → p.2 ∈ l := by
  intro l
  induction l with
  | nil => intro n p hp; cases hp
  | cons x xs ih =>
    intro n p hp
    simp only [List.enumFrom] at hp
    rcases List.mem_cons.mp hp with h | h
    · rw [h]
      exact List.mem_cons_self _ _
    · exact List.mem_cons_of_mem x (ih (n + 1) p h)

lemma snd_mem_of_mem_enum {α : Type} (l : List α) (p : Nat × α) (hp : p ∈ l.enum) :
    p.2 ∈ l :=
  snd_mem_of_mem_enumFrom l 0 p hp

lemma getD_mem_or_default {α : Type} (l : List α) (i : Nat) (d : α) :
    l.getD i d ∈ l ∨ l.getD i d = d := by
  by_cases h : i < l.length
  · left
    rw [List.getD_eq_getElem l d h]
    exact List.getElem_mem h
  · right
    induction l generalizing i with
    | nil => cases i <;> rfl
    | cons a as ih =>
      cases i with
      | zero => exact absurd (by simp) h
      | succ j =>
        show as.getD j d = d
        exact ih j (fun hj => h (by simpa [Nat.succ_lt_succ_iff] using hj))

lemma stepUpd_text_good (cmds : List ConsoleCommand) (lim : Bool) (A : List Bool)
    (tid : Nat) (tok : Str) (text : Str) (ex : Bool)
    (hws : wsFreeCmds cmds)
    (hu : stepUpd cmds lim A tid tok = some (text, ex)) : goodToken text := by
  cases hsel : stepSel cmds lim A tid tok with
  | nil =>
    simp only [stepUpd, hsel] at hu
    exact Option.noConfusion hu
  | cons first rest =>
    simp only [stepUpd, hsel] at hu
    split_ifs at hu with hbc
    · simp only [Option.some.injEq, Prod.mk.injEq] at hu
      obtain ⟨h1, _⟩ := hu
      have hfmem : first ∈ stepSel cmds lim A tid tok := by
        rw [hsel]
        exact List.mem_cons_self _ _
      have hprov : ∃ p ∈ cmds.enum, ∃ q ∈ (p.2.generators.getD tid []).enum,
          groupBest tok p.1 q.1 q.2 = some first := by
        unfold stepSel at hfmem
        by_cases hsw : swOfCmds lim tid tok cmds.enum A = []
        · rw [if_pos hsw] at hfmem
          obtain ⟨p, hp, q, hq, hg, _⟩ := imOfCmds_mem lim tid tok cmds.enum A first hfmem
          exact ⟨p, hp, q, hq, hg⟩
        · rw [if_neg hsw] at hfmem
          obtain ⟨p, hp, q, hq, hg, _⟩ := swOfCmds_mem lim tid tok cmds.enum A first hfmem
          exact ⟨p, hp, q, hq, hg⟩
      obtain ⟨p, hp, q, hq, hg⟩ := hprov
      obtain ⟨al, hal, hfi⟩ := groupBest_mk tok p.1 q.1 q.2 first hg
      have hcmem : p.2 ∈ cmds := snd_mem_of_mem_enum cmds p hp
      have hglmem : q.2 ∈ p.2.generators.getD tid [] := snd_mem_of_mem_enum _ q hq
      have halws : al.all (fun ch => !cppIsSpace ch) = true := by
        rcases getD_mem_or_default p.2.generators tid [] with hin | hdef
        · exact hws p.2 hcmem _ hin q.2 hglmem al hal
        · rw [hdef] at hglmem
          cases hglmem
      have hcand : first.candidate = al := by
        rw [hfi]
        simp [mkInfo]
      have hclen : first.candidateLowered.length = al.length := by
        rw [hfi]
        exact lowerStr_length al
      have hle : bucketCommon (first :: rest) ≤ first.candidateLowered.length := by
        simp only [bucketCommon]
        exact foldl_min_le_start
          (fun mi : MatchInfo => commonStartLength first.candidateLowered mi.candidateLowered)
          (first :: rest) first.candidateLowered.length
      have hlen : text.length = bucketCommon (first :: rest) := by
        rw [← h1, hcand, List.length_take]
        exact Nat.min_eq_left (hclen ▸ hle)
      constructor
      · intro hc
        rw [hc, List.length_nil] at hlen
        exact hbc hlen.symm
      · rw [List.all_eq_true]
        intro ch hch
        rw [← h1, hcand] at hch
        exact List.all_eq_true.mp halws ch (List.take_subset _ al hch)

lemma tokenStep_entries_good (cmds : List ConsoleCommand) (lim : Bool)
    (A : List Bool) (nt : List (Str × Bool)) (tid : Nat) (tok : Str)
    (hws : wsFreeCmds cmds) (hnt : ∀ p ∈ nt, goodToken p.1) :
    ∀ p ∈ (tokenStep cmds lim (A, nt) (tid, tok)).2, goodToken p.1 := by
  intro p hp
  rw [tokenStep_shape] at hp
  cases hu : stepUpd cmds lim A tid tok with
  | none =>
    rw [hu] at hp
    exact hnt p hp
  | some r =>
    rw [hu] at hp
    rcases List.mem_or_eq_of_mem_set hp with h | h
    · exact hnt p h
    · cases r with
      | mk text ex =>
        rw [h]
        exact stepUpd_text_good cmds lim A tid tok text ex hws hu

lemma runFrom_entries_good (cmds : List ConsoleCommand) (lim : Bool)
    (hws : wsFreeCmds cmds) :
    ∀ (toks : List Str) (t : Nat) (acc : List Bool × List (Str × Bool)),
      (∀ p ∈ acc.2, goodToken p.1) →
      ∀ p ∈ (runFrom cmds lim t toks acc).2, goodToken p.1 := by
  intro toks
  induction toks with
  | nil => intro t acc hacc p hp; exact hacc p hp
  | cons tok rest ih =>
    intro t acc hacc p hp
    rw [runFrom_cons] at hp
    refine ih (t + 1) (tokenStep cmds lim acc (t, tok)) ?_ p hp
    cases acc with
    | mk A nt => exact tokenStep_entries_good cmds lim A nt t tok hws hacc

lemma listGetD_oob {α : Type} :
    ∀ (l : List α) (i : Nat) (d : α), l.length ≤ i → l.getD i d = d := by
  intro l
  induction l with
  | nil => intro i d _; cases i <;> rfl
  | cons a as ih =>
    intro i d h
    cases i with
    | zero => exact absurd h (by simp)
    | succ j =>
      refine ih j d ?_
      simp only [List.length_cons] at h
      omega

lemma list_eq_of_getD {α : Type} (l1 l2 : List α) (d : α)
    (hlen : l1.length = l2.length) (h : ∀ i, l1.getD i d = l2.getD i d) : l1 = l2 := by
  apply List.ext_getElem hlen
  intro i h1 h2
  have hi := h i
  rw [List.getD_eq_getElem l1 d h1, List.getD_eq_getElem l2 d h2] at hi
  exact hi

lemma getLastD_mem {α : Type} :
    ∀ (l : List α) (d : α), l ≠ [] → l.getLastD d ∈ l := by
  intro l
  induction l with
  | nil => intro d h; exact absurd rfl h
  | cons a as ih =>
    intro d _
    rw [List.getLastD_cons]
    cases has : as with
    | nil =>
      subst has
      exact List.mem_singleton.mpr rfl
    | cons b bs =>
      subst has
      exact List.mem_cons_of_mem a (ih a (by simp))

lemma autoComplete_overwrite_eq (cmds : List ConsoleCommand) (lim sugg : Bool)
    (input : Str) (h : ¬ (tokenize input).isEmpty = true) :
    autoComplete cmds input lim sugg true =
      rejoinTokens (cppIsSpace (input.getLastD ' ')) (acRun cmds lim input).2 := by
  simp only [autoComplete]
  rw [if_neg h]
  rfl

lemma autoComplete_nil_tokens (cmds : List ConsoleCommand) (lim sugg ov : Bool)
    (input : Str) (h : (tokenize input).isEmpty = true) :
    autoComplete cmds input lim sugg ov = input := by
  simp only [autoComplete]
  rw [if_pos h]

/-- Relational core of C6: when every alias is whitespace-free and the first
run left every entry exhausted or untouched, re-running the token loop on the
texts it produced reproduces the entry list exactly. -/
lemma run_idem_core (cmds : List ConsoleCommand) (lim : Bool) (toks : List Str)
    (F : List (Str × Bool))
    (hg : ∀ s ∈ toks, goodToken s)
    (hF : F = (runTokens cmds lim (toks.map lowerStr)
      (toks.map (fun t => (t, false)))).2)
    (hexh : ∀ k, k < toks.length → (F.getD k ([], false)).2 = true ∨
      F.getD k ([], false) = (toks.getD k [], false)) :
    (runTokens cmds lim ((F.map (fun p => p.1)).map lowerStr)
      ((F.map (fun p => p.1)).map (fun t => (t, false)))).2 = F := by
  rw [runTokens_eq_runFrom] at hF
  rw [runTokens_eq_runFrom]
  have hFlen : F.length = toks.length := by
    rw [hF, runFrom_nt_length]
    simp
  have hstab := runFrom_stable cmds lim toks 0 (List.replicate cmds.length true)
    (toks.map (fun t => (t, false))) ((F.map (fun p => p.1)).map (fun t => (t, false)))
    (F.map (fun p => p.1))
    (fun s hs => (hg s hs).1)
    (by simp)
    (by simp [hFlen])
    (fun k hk => by
      rw [Nat.zero_add]
      exact getD_map_of_lt (fun t => (t, false)) toks k ([], false) [] hk)
    (fun k hk => by
      rw [Nat.zero_add, ← hF]
      exact hexh k hk)
    (by simp [hFlen])
    (fun k hk => by
      rw [Nat.zero_add, ← hF]
      exact getD_map_of_lt (fun p => p.1) F k [] ([], false) (by rw [hFlen]; exact hk))
    (fun k hk => by
      rw [Nat.zero_add, ← hF]
      rw [getD_map_of_lt (fun t => (t, false)) (F.map (fun p => p.1)) k ([], false) []
        (by rw [List.length_map, hFlen]; exact hk)]
      rw [getD_map_of_lt (fun p => p.1) F k [] ([], false) (by rw [hFlen]; exact hk)])
  obtain ⟨_, hpt⟩ := hstab
  refine list_eq_of_getD _ _ ([], false) ?_ ?_
  · rw [runFrom_nt_length]
    simp [hFlen]
  · intro i
    have hi := hpt i
    by_cases hil : i < toks.length
    · rw [if_pos ⟨Nat.zero_le i, by omega⟩] at hi
      rw [hi, ← hF]
    · rw [if_neg (by intro hcon; omega)] at hi
      rw [hi]
      rw [listGetD_oob ((F.map (fun p => p.1)).map (fun t => (t, false))) i ([], false)
        (by simp only [List.length_map, hFlen]; omega)]
      rw [listGetD_oob F i ([], false) (by rw [hFlen]; omega)]

/-- C6, amended: when no alias offered by any registered command contains a
whitespace character and the completion run on `input` leaves every token
either exhausted or untouched, re-running `Console::autoComplete` with input
rewriting on the rewritten line reproduces that line exactly — idempotence
holds even without trailing-space normalization. Over arbitrary generators
the claim is false: a space-containing alias makes the rewritten line
re-tokenize into more tokens than the run that produced it, as
`autoComplete_idempotent_counterexample` shows. -/
theorem autoComplete_exhausted_idempotent (cmds : List ConsoleCommand)
    (lim sugg sugg2 : Bool) (input : Str)
    (hws : wsFreeCmds cmds)
    (hexh : ∀ k, k < (tokenize input).length →
      ((acRun cmds lim input).2.getD k ([], false)).2 = true ∨
        (acRun cmds lim input).2.getD k ([], false) =
          ((tokenize input).getD k [], false)) :
    autoComplete cmds (autoComplete cmds input lim sugg true) lim sugg2 true =
      autoComplete cmds input lim sugg true := by
  by_cases htok : (tokenize input).isEmpty = true
  · rw [autoComplete_nil_tokens cmds lim sugg true input htok]
    rw [autoComplete_nil_tokens cmds lim sugg2 true input htok]
  · have htoksne : tokenize input ≠ [] := by
      intro hc
      rw [hc] at htok
      exact htok rfl
    have hout1 := autoComplete_overwrite_eq cmds lim sugg input htok
    have hFgood : ∀ p ∈ (acRun cmds lim input).2, goodToken p.1 := by
      unfold acRun
      rw [runTokens_eq_runFrom]
      refine runFrom_entries_good cmds lim hws ((tokenize input).map lowerStr) 0 _ ?_
      intro p hp
      obtain ⟨s, hs, hsp⟩ := List.mem_map.mp hp
      rw [← hsp]
      exact tokenize_props input s hs
    have htok2 : tokenize (autoComplete cmds input lim sugg true) =
        (acRun cmds lim input).2.map (fun p => p.1) := by
      rw [hout1]
      exact tokenize_rejoin (acRun cmds lim input).2 _ hFgood
    have hFlen : (acRun cmds lim input).2.length = (tokenize input).length := by
      unfold acRun
      rw [runTokens_eq_runFrom, runFrom_nt_length]
      simp
    have hFne : (acRun cmds lim input).2 ≠ [] := by
      intro hc
      rw [hc] at hFlen
      exact htoksne (List.length_eq_zero.mp hFlen.symm)
    have htok2ne : ¬ (tokenize (autoComplete cmds input lim sugg true)).isEmpty = true := by
      rw [htok2]
      cases hFc : (acRun cmds lim input).2 with
      | nil => exact absurd hFc hFne
      | cons p ps => simp
    rw [autoComplete_overwrite_eq cmds lim sugg2 (autoComplete cmds input lim sugg true)
      htok2ne]
    have hcore : (acRun cmds lim (autoComplete cmds input lim sugg true)).2 =
        (acRun cmds lim input).2 := by
      have hacr2 : acRun cmds lim (autoComplete cmds input lim sugg true) =
          runTokens cmds lim
            (((acRun cmds lim input).2.map (fun p => p.1)).map lowerStr)
            (((acRun cmds lim input).2.map (fun p => p.1)).map (fun t => (t, false))) := by
        unfold acRun
        rw [htok2]
        rfl
      rw [hacr2]
      exact run_idem_core cmds lim (tokenize input) (acRun cmds lim input).2
        (tokenize_props input) rfl hexh
    rw [hcore, hout1]
    obtain ⟨init, p, hFsplit⟩ : ∃ init p, (acRun cmds lim input).2 = init ++ [p] :=
      ⟨(acRun cmds lim input).2.dropLast, (acRun cmds lim input).2.getLast hFne,
        (List.dropLast_append_getLast hFne).symm⟩
    rw [hFsplit]
    have hgoodall : ∀ x ∈ init ++ [p], goodToken x.1 := by
      rw [← hFsplit]
      exact hFgood
    have hpg : goodToken p.1 := hgoodall p (by simp)
    rw [rejoin_last_char (cppIsSpace (input.getLastD ' ')) p init hgoodall]
    refine rejoin_congr_last _ _ p ?_ init
    cases he1 : cppIsSpace (input.getLastD ' ') with
    | true => simp [cppIsSpace]
    | false =>
      cases hp2 : p.2 with
      | true => simp [cppIsSpace]
      | false =>
        have hch : p.1.getLastD ' ' ∈ p.1 := getLastD_mem p.1 ' ' hpg.1
        have hnw := List.all_eq_true.mp hpg.2 _ hch
        simp only [Bool.not_eq_true'] at hnw
        rw [if_neg (by simp), hnw]

/-- Witness for the amended C6: the registry offering the single alias `load`
is whitespace-free, completing the line `lo` rewrites its only token to
`load` marked exhausted, and re-running completion on the rewritten line
`load ` returns `load ` unchanged. -/
theorem autoComplete_exhausted_idempotent_witness :
    wsFreeCmds idemCmds ∧
    (∀ k, k < (tokenize "lo".toList).length →
      ((acRun idemCmds true "lo".toList).2.getD k ([], false)).2 = true ∨
        (acRun idemCmds true "lo".toList).2.getD k ([], false) =
          ((tokenize "lo".toList).getD k [], false)) ∧
    autoComplete idemCmds (autoComplete idemCmds "lo".toList true false true)
        true false true =
      autoComplete idemCmds "lo".toList true false true :=
  ⟨by unfold wsFreeCmds; decide, by decide,
    autoComplete_exhausted_idempotent idemCmds true false false "lo".toList
      (by unfold wsFreeCmds; decide) (by decide)⟩

/-- Counterexample for C6 as stated: with the space-containing alias `ab cd`,
completing the line `ab` rewrites its only token to `ab cd`, marks it
exhausted, and outputs `ab cd `; re-running completion with the same flags on
that line yields `ab cd cd `, which differs from it even after trailing-space
normalization. -/
theorem autoComplete_idempotent_counterexample :
    (∀ k, k < (tokenize "ab".toList).length →
      ((acRun spaceAliasCmds true "ab".toList).2.getD k ([], false)).2 = true) ∧
    autoComplete spaceAliasCmds "ab".toList true false true = "ab cd ".toList ∧
    autoComplete spaceAliasCmds (autoComplete spaceAliasCmds "ab".toList true false true)
        true false true = "ab cd cd ".toList ∧
    stripTrailing (autoComplete spaceAliasCmds
        (autoComplete spaceAliasCmds "ab".toList true false true) true false true) ≠
      stripTrailing (autoComplete spaceAliasCmds "ab".toList true false true) := by
  decide

end REGoth
